import Mathlib

/-!
Shallow embedding of the mini-geode entity-component substrate
(`src/lib.rs` together with `src/bort/src/core/token_cell.rs`).

Modelling conventions:

* Component-type identifiers (`TypeId`) are naturals, ordered by the
  natural order (the source orders `TypeId`s by their total order).
* Entities are naturals (the source uses `NonZeroU64` ids from a counter
  starting at 1).
* Archetype nodes are indices into the arena of interned component lists
  (`COMP_LISTS`); handle identity is index equality.
* Hashes are modelled as injective (collision-free): a hash-table probe
  compares a stored key only when the stored key's full sequence equals
  the probe's hashed sequence, and then applies the table's equivalence
  predicate, exactly as `hashbrown` behaves under a collision-free hash.
* Panics are modelled as `Except.error` carrying a structured diagnostic;
  a step of the system only happens on the `Except.ok` path, matching the
  fact that a panic aborts the process.
-/

namespace MiniGeode

/-- Inner loop of the two-pointer merge: the left iterator has peeked
element `x` (with remainder `xs` and recursive merge `mergeXs`), and we
walk the right iterator. Structured this way so that the recursion is
structural and hence computable by the kernel. -/
def mergeOne (x : Nat) (xs : List Nat) (mergeXs : List Nat → List Nat) :
    List Nat → List Nat
  | [] => x :: xs
  | y :: ys => if x < y then x :: mergeXs (y :: ys) else y :: mergeOne x xs mergeXs ys

/-- `merge_iters` (`src/lib.rs` lines 27-51): merge two iterators, taking
from `a` while `a < b` and otherwise taking from `b`. -/
def mergeIters : List Nat → List Nat → List Nat
  | [], b => b
  | x :: xs, b => mergeOne x xs (fun b2 => mergeIters xs b2) b

theorem mergeIters_nil (b : List Nat) : mergeIters [] b = b := rfl

theorem mergeIters_cons_nil (x : Nat) (xs : List Nat) :
    mergeIters (x :: xs) [] = x :: xs := rfl

theorem mergeIters_cons_cons (x : Nat) (xs : List Nat) (y : Nat) (ys : List Nat) :
    mergeIters (x :: xs) (y :: ys) =
      if x < y then x :: mergeIters xs (y :: ys) else y :: mergeIters (x :: xs) ys := rfl

theorem mem_mergeIters (v : Nat) :
    (a : List Nat) → (b : List Nat) → (v ∈ mergeIters a b ↔ v ∈ a ∨ v ∈ b)
  | [], b => by simp [mergeIters_nil]
  | x :: xs, [] => by simp [mergeIters_cons_nil]
  | x :: xs, y :: ys => by
    by_cases h : x < y
    · rw [mergeIters_cons_cons, if_pos h]
      simp [mem_mergeIters v xs (y :: ys)]
      tauto
    · rw [mergeIters_cons_cons, if_neg h]
      simp [mem_mergeIters v (x :: xs) ys]
      tauto
termination_by a b => a.length + b.length

/-- Merging a sorted, duplicate-free list with a fresh singleton yields a
sorted list (this is how `find_extension_in_db` builds target keys). -/
theorem sorted_mergeIters_single {a : List Nat} {t : Nat}
    (hs : List.Sorted (· < ·) a) (ht : t ∉ a) :
    List.Sorted (· < ·) (mergeIters a [t]) := by
  induction a with
  | nil =>
    simp [mergeIters]
  | cons x xs ih =>
    rcases List.sorted_cons.mp hs with ⟨hall, hxs⟩
    by_cases h : x < t
    · rw [show mergeIters (x :: xs) [t] = x :: mergeIters xs [t] from by
        rw [mergeIters_cons_cons, if_pos h]]
      refine List.sorted_cons.mpr ⟨?_, ih hxs (fun hm => ht (List.mem_cons_of_mem _ hm))⟩
      intro b hb
      rcases (mem_mergeIters b xs [t]).mp hb with h1 | h1
      · exact hall b h1
      · simp only [List.mem_singleton] at h1
        omega
    · have hne : t ≠ x := fun he => ht (by simp [he])
      have hxt : t < x := by omega
      rw [show mergeIters (x :: xs) [t] = t :: x :: xs from by
        rw [mergeIters_cons_cons, if_neg h, mergeIters_cons_nil]]
      refine List.sorted_cons.mpr ⟨?_, hs⟩
      intro b hb
      rcases List.mem_cons.mp hb with rfl | h1
      · exact hxt
      · exact lt_trans hxt (hall b h1)

-- === Archetype directory (`ComponentList` database) === --

/-- The `ComponentList` database: the arena of interned component lists
(`COMP_LISTS`), where a node handle is an arena index, together with the
per-node `extensions` and `de_extensions` edge caches (stored here as one
association list keyed by (node, component-type)). -/
structure Db where
  nodes : List (List Nat)
  extCache : List ((Nat × Nat) × Nat)
  deExtCache : List ((Nat × Nat) × Nat)
deriving DecidableEq, Repr

/-- `COMP_LISTS` starts out holding exactly `ComponentList::empty()`, the
root node (arena index 0). -/
def initDb : Db := ⟨[[]], [], []⟩

/-- Key sequence of the node with handle `n`. -/
def nodeComps (db : Db) (n : Nat) : List Nat := db.nodes.getD n []

/-- Lookup in an edge cache (`extensions` / `de_extensions` hash maps). -/
def findCache (key : Nat × Nat) : List ((Nat × Nat) × Nat) → Option Nat
  | [] => none
  | (k, m) :: rest => if k = key then some m else findCache key rest

/-- First arena index whose entry satisfies `p` (the hash-set probe). -/
def findNodeIdx (p : List Nat → Bool) : List (List Nat) → Option Nat
  | [] => none
  | c :: rest => if p c then some 0 else (findNodeIdx p rest).map (· + 1)

/-- The `Equivalent` predicate of `ComponentListSearch` in
`ComponentList::find_extension_in_db` (`src/lib.rs` line 188): it keeps
the elements of the stored key that are *equal* to the added component
(`**v == self.1`) and compares what is left with the base list. -/
def extSearchEquiv (base : List Nat) (w : Nat) (key : List Nat) : Bool :=
  key.filter (fun v => v == w) == base

/-- `ComponentList::find_extension_in_db` (`src/lib.rs` lines 175-204):
probe `COMP_LISTS` with the hash of the merged target sequence and the
`extSearchEquiv` equivalence check; on a miss, leak a new list whose
`comps` is the merged sequence and insert it. -/
def findExtensionInDb (db : Db) (base : List Nat) (w : Nat) : Db × Nat :=
  let target := mergeIters base [w]
  match findNodeIdx (fun k => k == target && extSearchEquiv base w k) db.nodes with
  | some i => (db, i)
  | none => ({ db with nodes := db.nodes ++ [target] }, db.nodes.length)

/-- The `Equivalent` predicate of `ComponentListSearch` in
`ComponentList::find_de_extension_in_db` (`src/lib.rs` line 222): it keeps
the elements of the base list that are *equal* to the removed component
and compares what is left with the stored key. -/
def deExtSearchEquiv (base : List Nat) (w : Nat) (key : List Nat) : Bool :=
  base.filter (fun v => v == w) == key

/-- `ComponentList::find_de_extension_in_db` (`src/lib.rs` lines 206-241). -/
def findDeExtensionInDb (db : Db) (base : List Nat) (w : Nat) : Db × Nat :=
  let target := base.filter (fun v => v != w)
  match findNodeIdx (fun k => k == target && deExtSearchEquiv base w k) db.nodes with
  | some i => (db, i)
  | none => ({ db with nodes := db.nodes ++ [target] }, db.nodes.length)

/-- `ComponentList::extend` (`src/lib.rs` lines 145-154): identity when
the type is already present, otherwise edge-cache lookup with
`find_extension_in_db` on a miss. -/
def extend (db : Db) (n t : Nat) : Db × Nat :=
  let comps := nodeComps db n
  if t ∈ comps then (db, n)
  else
    match findCache (n, t) db.extCache with
    | some m => (db, m)
    | none =>
      let r := findExtensionInDb db comps t
      ({ r.1 with extCache := ((n, t), r.2) :: r.1.extCache }, r.2)

/-- `ComponentList::de_extend` (`src/lib.rs` lines 156-165). -/
def deExtend (db : Db) (n t : Nat) : Db × Nat :=
  let comps := nodeComps db n
  if t ∈ comps then
    match findCache (n, t) db.deExtCache with
    | some m => (db, m)
    | none =>
      let r := findDeExtensionInDb db comps t
      ({ r.1 with deExtCache := ((n, t), r.2) :: r.1.deExtCache }, r.2)
  else (db, n)

/-- Claim C5: `extend(node, type)` returns the node itself (and leaves the
database untouched) when the type is already in the node's key set, and
`de_extend(node, type)` returns the node itself when the type is not in
the node's key set. -/
theorem extend_deExtend_idempotent (db : Db) (n t : Nat) :
    (t ∈ nodeComps db n → extend db n t = (db, n)) ∧
    (t ∉ nodeComps db n → deExtend db n t = (db, n)) := by
  constructor
  · intro h
    simp [extend, h]
  · intro h
    simp [deExtend, h]

theorem extend_deExtend_idempotent_witness :
    extend (Db.mk [[3]] [] []) 0 3 = (Db.mk [[3]] [] [], 0) ∧
    deExtend (Db.mk [[3]] [] []) 0 7 = (Db.mk [[3]] [] [], 0) :=
  ⟨(extend_deExtend_idempotent (Db.mk [[3]] [] []) 0 3).1 (by decide),
   (extend_deExtend_idempotent (Db.mk [[3]] [] []) 0 7).2 (by decide)⟩

-- === Basic lookup lemmas === --

theorem findCache_mem {key : Nat × Nat} {m : Nat} {c : List ((Nat × Nat) × Nat)}
    (h : findCache key c = some m) : (key, m) ∈ c := by
  induction c with
  | nil => simp [findCache] at h
  | cons p rest ih =>
    rcases p with ⟨k, m'⟩
    by_cases hk : k = key
    · subst hk
      simp [findCache] at h
      subst h
      exact List.mem_cons_self ..
    · simp only [findCache, if_neg hk] at h
      exact List.mem_cons_of_mem _ (ih h)

theorem findNodeIdx_spec {p : List Nat → Bool} {l : List (List Nat)} {i : Nat}
    (h : findNodeIdx p l = some i) : i < l.length ∧ p (l.getD i []) = true := by
  induction l generalizing i with
  | nil => simp [findNodeIdx] at h
  | cons c rest ih =>
    cases hp : p c with
    | true =>
      simp [findNodeIdx, hp] at h
      subst h
      simp [hp]
    | false =>
      simp [findNodeIdx, hp] at h
      rcases h with ⟨j, hj, rfl⟩
      rcases ih hj with ⟨h1, h2⟩
      exact ⟨by simpa using Nat.succ_lt_succ h1, by simpa using h2⟩

theorem getD_append_left {α : Type} (l l' : List α) (d : α) (n : Nat)
    (h : n < l.length) : (l ++ l').getD n d = l.getD n d := by
  induction l generalizing n with
  | nil => simp at h
  | cons x xs ih =>
    cases n with
    | zero => rfl
    | succ m =>
      simp only [List.cons_append, List.getD_cons_succ]
      exact ih m (by simpa using h)

theorem getD_concat_self {α : Type} (l : List α) (c d : α) :
    (l ++ [c]).getD l.length d = c := by
  induction l with
  | nil => rfl
  | cons x xs ih =>
    simp only [List.cons_append, List.length_cons, List.getD_cons_succ]
    exact ih

theorem getD_mem {α : Type} {l : List α} {n : Nat} (d : α) (h : n < l.length) :
    l.getD n d ∈ l := by
  induction l generalizing n with
  | nil => simp at h
  | cons x xs ih =>
    cases n with
    | zero => simp
    | succ m => exact List.mem_cons_of_mem _ (ih (by simpa using h))

theorem nodeComps_mem {db : Db} {n : Nat} (h : n < db.nodes.length) :
    nodeComps db n ∈ db.nodes :=
  getD_mem [] h

-- === Database invariant === --

/-- Invariant of the component-list database: every interned key sequence
is strictly sorted, and every cached edge points at a node whose key
sequence is the merged (resp. filtered) sequence of its source node. -/
structure DbInv (db : Db) : Prop where
  sorted : ∀ c ∈ db.nodes, List.Sorted (· < ·) c
  extOk : ∀ q ∈ db.extCache,
    q.1.1 < db.nodes.length ∧ q.2 < db.nodes.length ∧
    nodeComps db q.2 = mergeIters (nodeComps db q.1.1) [q.1.2]
  deExtOk : ∀ q ∈ db.deExtCache,
    q.1.1 < db.nodes.length ∧ q.2 < db.nodes.length ∧
    nodeComps db q.2 = (nodeComps db q.1.1).filter (fun v => v != q.1.2)

theorem dbInv_init : DbInv initDb := by
  refine ⟨?_, ?_, ?_⟩
  · intro c hc
    simp only [initDb, List.mem_singleton] at hc
    simp [hc]
  · intro q hq
    simp [initDb] at hq
  · intro q hq
    simp [initDb] at hq

theorem extend_spec {db : Db} (n t : Nat) (hinv : DbInv db) (hn : n < db.nodes.length) :
    DbInv (extend db n t).1 ∧
    db.nodes.length ≤ (extend db n t).1.nodes.length ∧
    (extend db n t).2 < (extend db n t).1.nodes.length ∧
    (∀ i, i < db.nodes.length → nodeComps (extend db n t).1 i = nodeComps db i) ∧
    nodeComps (extend db n t).1 (extend db n t).2 =
      (if t ∈ nodeComps db n then nodeComps db n else mergeIters (nodeComps db n) [t]) := by
  by_cases hmem : t ∈ nodeComps db n
  · have hext : extend db n t = (db, n) := by
      simp only [extend, if_pos hmem]
    rw [hext]
    exact ⟨hinv, le_refl _, hn, fun i _ => rfl, by rw [if_pos hmem]⟩
  · rcases hfc : findCache (n, t) db.extCache with _ | m
    · rcases hfi : findNodeIdx
          (fun k => k == mergeIters (nodeComps db n) [t] &&
            extSearchEquiv (nodeComps db n) t k) db.nodes with _ | i
      · -- edge-cache miss and arena miss: a fresh node is appended
        have hext : extend db n t =
            (Db.mk (db.nodes ++ [mergeIters (nodeComps db n) [t]])
              (((n, t), db.nodes.length) :: db.extCache) db.deExtCache,
             db.nodes.length) := by
          simp only [extend, if_neg hmem, hfc, findExtensionInDb, hfi]
        rw [hext]
        have hstab : ∀ i, i < db.nodes.length →
            nodeComps (Db.mk (db.nodes ++ [mergeIters (nodeComps db n) [t]])
              (((n, t), db.nodes.length) :: db.extCache) db.deExtCache) i =
            nodeComps db i := by
          intro i hi
          simp only [nodeComps]
          exact getD_append_left _ _ _ _ hi
        have hlast : nodeComps (Db.mk (db.nodes ++ [mergeIters (nodeComps db n) [t]])
              (((n, t), db.nodes.length) :: db.extCache) db.deExtCache)
              db.nodes.length = mergeIters (nodeComps db n) [t] := by
          simp only [nodeComps]
          exact getD_concat_self _ _ _
        refine ⟨⟨?_, ?_, ?_⟩, ?_, ?_, hstab, ?_⟩
        · intro c hc
          rcases List.mem_append.mp hc with hc | hc
          · exact hinv.sorted c hc
          · simp only [List.mem_singleton] at hc
            subst hc
            exact sorted_mergeIters_single (hinv.sorted _ (nodeComps_mem hn)) hmem
        · intro q hq
          rcases List.mem_cons.mp hq with rfl | hq
        -- deliberately continued below
          · refine ⟨by simpa using Nat.lt_succ_of_lt hn, by simp, ?_⟩
            rw [hlast, hstab n hn]
          · rcases hinv.extOk q hq with ⟨h1, h2, h3⟩
            refine ⟨by simpa using Nat.lt_succ_of_lt h1,
              by simpa using Nat.lt_succ_of_lt h2, ?_⟩
            rw [hstab _ h1, hstab _ h2, h3]
        · intro q hq
          rcases hinv.deExtOk q hq with ⟨h1, h2, h3⟩
          refine ⟨by simpa using Nat.lt_succ_of_lt h1,
            by simpa using Nat.lt_succ_of_lt h2, ?_⟩
          rw [hstab _ h1, hstab _ h2, h3]
        · simp
        · simp
        · rw [hlast, if_neg hmem]
      · -- edge-cache miss, arena hit at index i
        have hext : extend db n t =
            (Db.mk db.nodes (((n, t), i) :: db.extCache) db.deExtCache, i) := by
          simp only [extend, if_neg hmem, hfc, findExtensionInDb, hfi]
        rcases findNodeIdx_spec hfi with ⟨hi, hpi⟩
        have hieq : nodeComps db i = mergeIters (nodeComps db n) [t] := by
          simp only [Bool.and_eq_true, beq_iff_eq] at hpi
          exact hpi.1
        rw [hext]
        refine ⟨⟨hinv.sorted, ?_, hinv.deExtOk⟩, le_refl _, hi, fun i _ => rfl, ?_⟩
        · intro q hq
          rcases List.mem_cons.mp hq with rfl | hq
          · exact ⟨hn, hi, hieq⟩
          · exact hinv.extOk q hq
        · rw [if_neg hmem]
          exact hieq
    · -- edge-cache hit
      have hext : extend db n t = (db, m) := by
        simp only [extend, if_neg hmem, hfc]
      rcases hinv.extOk _ (findCache_mem hfc) with ⟨_, h2, h3⟩
      rw [hext]
      exact ⟨hinv, le_refl _, h2, fun i _ => rfl, by rw [if_neg hmem]; exact h3⟩

theorem deExtend_spec {db : Db} (n t : Nat) (hinv : DbInv db) (hn : n < db.nodes.length) :
    DbInv (deExtend db n t).1 ∧
    db.nodes.length ≤ (deExtend db n t).1.nodes.length ∧
    (deExtend db n t).2 < (deExtend db n t).1.nodes.length ∧
    (∀ i, i < db.nodes.length → nodeComps (deExtend db n t).1 i = nodeComps db i) ∧
    nodeComps (deExtend db n t).1 (deExtend db n t).2 =
      (if t ∈ nodeComps db n then (nodeComps db n).filter (fun v => v != t)
       else nodeComps db n) := by
  by_cases hmem : t ∈ nodeComps db n
  · rcases hfc : findCache (n, t) db.deExtCache with _ | m
    · rcases hfi : findNodeIdx
          (fun k => k == (nodeComps db n).filter (fun v => v != t) &&
            deExtSearchEquiv (nodeComps db n) t k) db.nodes with _ | i
      · -- edge-cache miss and arena miss: a fresh node is appended
        have hext : deExtend db n t =
            (Db.mk (db.nodes ++ [(nodeComps db n).filter (fun v => v != t)])
              db.extCache (((n, t), db.nodes.length) :: db.deExtCache),
             db.nodes.length) := by
          simp only [deExtend, if_pos hmem, hfc, findDeExtensionInDb, hfi]
        rw [hext]
        have hstab : ∀ i, i < db.nodes.length →
            nodeComps (Db.mk (db.nodes ++ [(nodeComps db n).filter (fun v => v != t)])
              db.extCache (((n, t), db.nodes.length) :: db.deExtCache)) i =
            nodeComps db i := by
          intro i hi
          simp only [nodeComps]
          exact getD_append_left _ _ _ _ hi
        have hlast : nodeComps (Db.mk (db.nodes ++
              [(nodeComps db n).filter (fun v => v != t)])
              db.extCache (((n, t), db.nodes.length) :: db.deExtCache))
              db.nodes.length = (nodeComps db n).filter (fun v => v != t) := by
          simp only [nodeComps]
          exact getD_concat_self _ _ _
        refine ⟨⟨?_, ?_, ?_⟩, ?_, ?_, hstab, ?_⟩
        · intro c hc
          rcases List.mem_append.mp hc with hc | hc
          · exact hinv.sorted c hc
          · simp only [List.mem_singleton] at hc
            subst hc
            exact List.Pairwise.sublist (List.filter_sublist _)
              (hinv.sorted _ (nodeComps_mem hn))
        · intro q hq
          rcases hinv.extOk q hq with ⟨h1, h2, h3⟩
          refine ⟨by simpa using Nat.lt_succ_of_lt h1,
            by simpa using Nat.lt_succ_of_lt h2, ?_⟩
          rw [hstab _ h1, hstab _ h2, h3]
        · intro q hq
          rcases List.mem_cons.mp hq with rfl | hq
          · refine ⟨by simpa using Nat.lt_succ_of_lt hn, by simp, ?_⟩
            rw [hlast, hstab n hn]
          · rcases hinv.deExtOk q hq with ⟨h1, h2, h3⟩
            refine ⟨by simpa using Nat.lt_succ_of_lt h1,
              by simpa using Nat.lt_succ_of_lt h2, ?_⟩
            rw [hstab _ h1, hstab _ h2, h3]
        · simp
        · simp
        · rw [hlast, if_pos hmem]
      · -- edge-cache miss, arena hit at index i
        have hext : deExtend db n t =
            (Db.mk db.nodes db.extCache (((n, t), i) :: db.deExtCache), i) := by
          simp only [deExtend, if_pos hmem, hfc, findDeExtensionInDb, hfi]
        rcases findNodeIdx_spec hfi with ⟨hi, hpi⟩
        have hieq : nodeComps db i = (nodeComps db n).filter (fun v => v != t) := by
          simp only [Bool.and_eq_true, beq_iff_eq] at hpi
          exact hpi.1
        rw [hext]
        refine ⟨⟨hinv.sorted, hinv.extOk, ?_⟩, le_refl _, hi, fun i _ => rfl, ?_⟩
        · intro q hq
          rcases List.mem_cons.mp hq with rfl | hq
          · exact ⟨hn, hi, hieq⟩
          · exact hinv.deExtOk q hq
        · rw [if_pos hmem]
          exact hieq
    · -- edge-cache hit
      have hext : deExtend db n t = (db, m) := by
        simp only [deExtend, if_pos hmem, hfc]
      rcases hinv.deExtOk _ (findCache_mem hfc) with ⟨_, h2, h3⟩
      rw [hext]
      exact ⟨hinv, le_refl _, h2, fun i _ => rfl, by rw [if_pos hmem]; exact h3⟩
  · have hext : deExtend db n t = (db, n) := by
      simp only [deExtend, if_neg hmem]
    rw [hext]
    exact ⟨hinv, le_refl _, hn, fun i _ => rfl, by rw [if_neg hmem]⟩

-- === Reachability of databases and claim C6 === --

/-- Databases reachable from the initial one by extend / de_extend
transitions starting at existing nodes. -/
inductive DbReach : Db → Prop where
  | init : DbReach initDb
  | ext : ∀ db n t, DbReach db → n < db.nodes.length → DbReach (extend db n t).1
  | deExt : ∀ db n t, DbReach db → n < db.nodes.length → DbReach (deExtend db n t).1

theorem dbReach_inv {db : Db} (h : DbReach db) : DbInv db := by
  induction h with
  | init => exact dbInv_init
  | ext db n t _ hn ih => exact (extend_spec n t ih hn).1
  | deExt db n t _ hn ih => exact (deExtend_spec n t ih hn).1

/-- Claim C6: every archetype node of a database reachable from the empty
root node by extend / de_extend transitions has a key sequence that is
sorted by the total order on component-type identifiers and contains no
duplicate identifiers. -/
theorem reachable_node_keys_sorted_nodup (db : Db) (h : DbReach db) :
    ∀ c ∈ db.nodes, List.Sorted (· < ·) c ∧ c.Nodup :=
  fun c hc =>
    ⟨(dbReach_inv h).sorted c hc,
     List.Pairwise.imp (fun hlt => Nat.ne_of_lt hlt) ((dbReach_inv h).sorted c hc)⟩

theorem reachable_node_keys_sorted_nodup_witness :
    List.Sorted (· < ·) [5] ∧ [5].Nodup :=
  reachable_node_keys_sorted_nodup (extend initDb 0 5).1
    (DbReach.ext initDb 0 5 DbReach.init (by decide)) [5] (by decide)

-- === Storage allocator (`Storage<T>`) === --

/-- Dynamic borrow state of a `RefCell`: free, `n + 1` outstanding shared
borrows, or one exclusive borrow. -/
inductive BorrowState where
  | free
  | shared (n : Nat)
  | exclusive
deriving DecidableEq, Repr

/-- A `StorageSlot<T> = RefCell<Option<T>>`; component values are
modelled as naturals. -/
structure StorSlot where
  bs : BorrowState
  val : Option Nat
deriving DecidableEq, Repr

/-- `StorageInner<T>`: the leaked slot blocks (an arena of slots indexed
by allocation order), the free-slot stack (a `Vec`, pushing and popping
at the end) and the entity-to-slot mappings. -/
structure StorageState where
  slots : List StorSlot
  freeSlots : List Nat
  mappings : Nat → Option Nat

def emptyStorage : StorageState := ⟨[], [], fun _ => none⟩

def slotAt (st : StorageState) (s : Nat) : StorSlot := st.slots.getD s ⟨.free, none⟩

/-- Diagnostics carried by a panic (`panic!` aborts the process, so an
`Except.error` state is terminal). -/
inductive Diag where
  | deadEntity (e : Nat)
  | missingComponent (t : Nat) (e : Nat) (comps : List Nat)
  | borrowConflict
  | internalError
deriving DecidableEq, Repr

/-- `BLOCK_SIZE` (`src/lib.rs` line 266). -/
def blockSize : Nat := 128

/-- Allocate a fresh block of `BLOCK_SIZE` default slots and push them
all onto the free list (`Storage::insert_untracked`, vacant arm). -/
def allocBlock (st : StorageState) : StorageState :=
  { st with
    slots := st.slots ++ List.replicate blockSize ⟨.free, none⟩,
    freeSlots := st.freeSlots ++ (List.range blockSize).map (fun i => st.slots.length + i) }

/-- Vacant arm of `Storage::insert_untracked`: pop the last free slot
(`free_slots.pop().unwrap()`, panicking if the free list is somehow
empty), insert the entity mapping, and replace the slot's value.
`RefCell::borrow_mut` panics when the slot is currently borrowed. -/
def insertVacant (st1 : StorageState) (e v : Nat) :
    Except Diag (Option Nat × StorageState) :=
  match st1.freeSlots.getLast? with
  | none => .error .internalError
  | some s =>
    let st2 := { st1 with
      freeSlots := st1.freeSlots.dropLast,
      mappings := fun e2 => if e2 = e then some s else st1.mappings e2 }
    let sl := slotAt st2 s
    if sl.bs = .free then
      .ok (sl.val, { st2 with slots := st2.slots.set s ⟨.free, some v⟩ })
    else .error .borrowConflict

/-- `Storage::insert_untracked` (`src/lib.rs` lines 293-315): on an
occupied mapping, replace the slot value; on a vacant mapping, allocate
a block first if the free list is empty, then pop a free slot. -/
def insertUntracked (st : StorageState) (e v : Nat) :
    Except Diag (Option Nat × StorageState) :=
  match st.mappings e with
  | some s =>
    let sl := slotAt st s
    if sl.bs = .free then
      .ok (sl.val, { st with slots := st.slots.set s ⟨.free, some v⟩ })
    else .error .borrowConflict
  | none =>
    insertVacant (if st.freeSlots.isEmpty then allocBlock st else st) e v

/-- `Storage::remove_untracked` (`src/lib.rs` lines 333-342): detach the
mapping, push the slot back onto the free list and take its value; a
missing mapping yields `None` without any effect. -/
def removeUntracked (st : StorageState) (e : Nat) :
    Except Diag (Option Nat × StorageState) :=
  match st.mappings e with
  | some s =>
    let sl := slotAt st s
    if sl.bs = .free then
      .ok (sl.val, { st with
        mappings := fun e2 => if e2 = e then none else st.mappings e2,
        freeSlots := st.freeSlots ++ [s],
        slots := st.slots.set s ⟨.free, none⟩ })
    else .error .borrowConflict
  | none => .ok (none, st)

-- === Entity registry and world state === --

/-- The whole thread state: the archetype directory (`COMP_LISTS`), the
alive-set (`ALIVE`, mapping each live entity to its archetype node), the
per-component-type storages (`STORAGES`, storages spring into existence
empty on first use) and the id generator (`ID_GEN`). -/
structure World where
  db : Db
  alive : Nat → Option Nat
  storages : Nat → StorageState
  nextId : Nat

def initWorld : World := ⟨initDb, fun _ => none, fun _ => emptyStorage, 1⟩

/-- `Entity::new_unmanaged` (`src/lib.rs` lines 435-443): fresh id,
registered alive on the root (empty) archetype node. -/
def newEntity (w : World) : Nat × World :=
  (w.nextId,
   { w with
     nextId := w.nextId + 1,
     alive := fun e => if e = w.nextId then some 0 else w.alive e })

/-- `Entity::is_alive` (`src/lib.rs` lines 478-480). -/
def isAlive (w : World) (e : Nat) : Bool := (w.alive e).isSome

/-- `Storage::insert` (`src/lib.rs` lines 280-291): abort when the entity
is dead, otherwise a tracked archetype `extend` on the alive-set record
followed by `insert_untracked`. -/
def insertComp (w : World) (t e v : Nat) : Except Diag (Option Nat × World) :=
  match w.alive e with
  | none => .error (.deadEntity e)
  | some n =>
    let r := extend w.db n t
    let w1 := { w with
      db := r.1,
      alive := fun e2 => if e2 = e then some r.2 else w.alive e2 }
    match insertUntracked (w1.storages t) e v with
    | .error d => .error d
    | .ok (p, st) =>
      .ok (p, { w1 with storages := fun t2 => if t2 = t then st else w1.storages t2 })

/-- `Storage::remove` (`src/lib.rs` lines 317-331): abort when the entity
is dead, otherwise a tracked `de_extend` followed by `remove_untracked`. -/
def removeComp (w : World) (t e : Nat) : Except Diag (Option Nat × World) :=
  match w.alive e with
  | none => .error (.deadEntity e)
  | some n =>
    let r := deExtend w.db n t
    let w1 := { w with
      db := r.1,
      alive := fun e2 => if e2 = e then some r.2 else w.alive e2 }
    match removeUntracked (w1.storages t) e with
    | .error d => .error d
    | .ok (p, st) =>
      .ok (p, { w1 with storages := fun t2 => if t2 = t then st else w1.storages t2 })

/-- `Storage::get` via `Storage::get_slot` (`src/lib.rs` lines 350-390
and 404-407): read the value of a mapped slot (`slot.borrow()` panics if
the slot is exclusively borrowed); a missing slot aborts with a liveness
diagnostic when the entity is dead and with a missing-component
diagnostic naming the type and the entity's full current component list
when it is alive. -/
def getComp (w : World) (t e : Nat) : Except Diag Nat :=
  let st := w.storages t
  match st.mappings e with
  | some s =>
    let sl := slotAt st s
    if sl.bs = .exclusive then .error .borrowConflict
    else
      match sl.val with
      | some v => .ok v
      | none => .error .internalError
  | none =>
    match w.alive e with
    | none => .error (.deadEntity e)
    | some n => .error (.missingComponent t e (nodeComps w.db n))

/-- `Storage::try_get` (`src/lib.rs` lines 392-396): `None` when the
entity has no slot; on a mapped slot it still calls `slot.borrow()`,
which panics if the slot is exclusively borrowed. -/
def tryGetComp (w : World) (t e : Nat) : Except Diag (Option Nat) :=
  let st := w.storages t
  match st.mappings e with
  | none => .ok none
  | some s =>
    let sl := slotAt st s
    if sl.bs = .exclusive then .error .borrowConflict
    else
      match sl.val with
      | some v => .ok (some v)
      | none => .error .internalError

/-- `Storage::try_get_mut` (`src/lib.rs` lines 398-402): as `try_get`,
except that `slot.borrow_mut()` panics if the slot is borrowed at all. -/
def tryGetMutComp (w : World) (t e : Nat) : Except Diag (Option Nat) :=
  let st := w.storages t
  match st.mappings e with
  | none => .ok none
  | some s =>
    let sl := slotAt st s
    if sl.bs = .free then
      match sl.val with
      | some v => .ok (some v)
      | none => .error .internalError
    else .error .borrowConflict

/-- Holding the `Ref<'static, T>` guard returned by `Storage::get`: a
shared borrow of the slot is taken and stays outstanding until the guard
is dropped. -/
def borrowSharedComp (w : World) (t e : Nat) : Except Diag World :=
  let st := w.storages t
  match st.mappings e with
  | some s =>
    let sl := slotAt st s
    match sl.bs with
    | .exclusive => .error .borrowConflict
    | .free => .ok { w with storages := fun t2 => if t2 = t then
        { st with slots := st.slots.set s ⟨.shared 0, sl.val⟩ } else w.storages t2 }
    | .shared n => .ok { w with storages := fun t2 => if t2 = t then
        { st with slots := st.slots.set s ⟨.shared (n + 1), sl.val⟩ } else w.storages t2 }
  | none =>
    match w.alive e with
    | none => .error (.deadEntity e)
    | some n => .error (.missingComponent t e (nodeComps w.db n))

/-- Holding the `RefMut<'static, T>` guard returned by
`Storage::get_mut` (`src/lib.rs` lines 409-412). -/
def borrowMutComp (w : World) (t e : Nat) : Except Diag World :=
  let st := w.storages t
  match st.mappings e with
  | some s =>
    let sl := slotAt st s
    if sl.bs = .free then
      .ok { w with storages := fun t2 => if t2 = t then
        { st with slots := st.slots.set s ⟨.exclusive, sl.val⟩ } else w.storages t2 }
    else .error .borrowConflict
  | none =>
    match w.alive e with
    | none => .error (.deadEntity e)
    | some n => .error (.missingComponent t e (nodeComps w.db n))

/-- Dropping a `Ref` guard releases one shared borrow. -/
def releaseSharedComp (w : World) (t e : Nat) : Except Diag World :=
  let st := w.storages t
  match st.mappings e with
  | some s =>
    let sl := slotAt st s
    match sl.bs with
    | .shared 0 => .ok { w with storages := fun t2 => if t2 = t then
        { st with slots := st.slots.set s ⟨.free, sl.val⟩ } else w.storages t2 }
    | .shared (n + 1) => .ok { w with storages := fun t2 => if t2 = t then
        { st with slots := st.slots.set s ⟨.shared n, sl.val⟩ } else w.storages t2 }
    | _ => .error .internalError
  | none => .error .internalError

/-- Dropping a `RefMut` guard releases the exclusive borrow. -/
def releaseMutComp (w : World) (t e : Nat) : Except Diag World :=
  let st := w.storages t
  match st.mappings e with
  | some s =>
    let sl := slotAt st s
    if sl.bs = .exclusive then
      .ok { w with storages := fun t2 => if t2 = t then
        { st with slots := st.slots.set s ⟨.free, sl.val⟩ } else w.storages t2 }
    else .error .internalError
  | none => .error .internalError

/-- `ComponentList::run_dtors` (`src/lib.rs` lines 139-143): every
component type's dtor is `storage::<T>().remove_untracked(entity)`
(ignoring missing components), replayed in key-sequence order. -/
def runDtors (e : Nat) : List Nat → World → Except Diag World
  | [], w => .ok w
  | t :: ts, w =>
    match removeUntracked (w.storages t) e with
    | .error d => .error d
    | .ok (_, st) =>
      runDtors e ts { w with storages := fun t2 => if t2 = t then st else w.storages t2 }

/-- `Entity::destroy` (`src/lib.rs` lines 482-491): abort when the entity
is already dead, otherwise remove it from the alive-set and replay the
dtor of every component type in its archetype node. -/
def destroyEntity (w : World) (e : Nat) : Except Diag World :=
  match w.alive e with
  | none => .error (.deadEntity e)
  | some n =>
    runDtors e (nodeComps w.db n)
      { w with alive := fun e2 => if e2 = e then none else w.alive e2 }

/-- States reachable through the entity-level API from the initial
(empty) thread state; a panic aborts the process, so only `ok` steps
continue. -/
inductive Reach : World → Prop where
  | init : Reach initWorld
  | create : ∀ w, Reach w → Reach (newEntity w).2
  | insert : ∀ w t e v p w', Reach w → insertComp w t e v = .ok (p, w') → Reach w'
  | remove : ∀ w t e p w', Reach w → removeComp w t e = .ok (p, w') → Reach w'
  | destroy : ∀ w e w', Reach w → destroyEntity w e = .ok w' → Reach w'
  | borrowS : ∀ w t e w', Reach w → borrowSharedComp w t e = .ok w' → Reach w'
  | borrowM : ∀ w t e w', Reach w → borrowMutComp w t e = .ok w' → Reach w'
  | releaseS : ∀ w t e w', Reach w → releaseSharedComp w t e = .ok w' → Reach w'
  | releaseM : ∀ w t e w', Reach w → releaseMutComp w t e = .ok w' → Reach w'

-- === The concrete run refuting claim C1 === --

/-- Trace helper: the world after a successful insert (used only to
write down concrete execution traces). -/
def afterInsert (w : World) (t e v : Nat) : World :=
  match insertComp w t e v with
  | .ok r => r.2
  | .error _ => w

def c1w0 : World := (newEntity (newEntity initWorld).2).2

def c1w1 : World := afterInsert c1w0 0 1 10

def c1w2 : World := afterInsert c1w1 1 1 11

def c1w3 : World := afterInsert c1w2 1 2 12

def c1World : World := afterInsert c1w3 0 2 13

theorem c1World_reach : Reach c1World :=
  Reach.insert c1w3 0 2 13 none c1World
    (Reach.insert c1w2 1 2 12 none c1w3
      (Reach.insert c1w1 1 1 11 none c1w2
        (Reach.insert c1w0 0 1 10 none c1w1
          (Reach.create _ (Reach.create _ Reach.init)) rfl) rfl) rfl) rfl

/-- Claim C1 (refuting evidence): after a reachable run that inserts
component types 0 then 1 on entity 1, and the same two types in the
opposite order (1 then 0) on entity 2, the two live entities point at
DIFFERENT archetype node handles (arena indices 2 and 4) even though both
handles carry the identical key sequence [0, 1]: the `Equivalent`
predicate in `find_extension_in_db` keeps the elements *equal* to the
added type (`**v == self.1`) instead of filtering them out, so the
content-addressed probe never recognizes the canonical node and a
duplicate node is interned for the same type set. -/
theorem c1_same_set_distinct_nodes :
    Reach c1World ∧
    c1World.alive 1 = some 2 ∧ c1World.alive 2 = some 4 ∧
    nodeComps c1World.db 2 = [0, 1] ∧ nodeComps c1World.db 4 = [0, 1] :=
  ⟨c1World_reach, rfl, rfl, rfl, rfl⟩

-- === List helper lemmas for slot arenas === --

theorem getD_set_self {α : Type} {l : List α} {s : Nat} (x d : α) (h : s < l.length) :
    (l.set s x).getD s d = x := by
  induction l generalizing s with
  | nil => simp at h
  | cons a as ih =>
    cases s with
    | zero => rfl
    | succ m => exact ih (by simpa using h)

theorem getD_set_ne {α : Type} {l : List α} {s s2 : Nat} (x d : α) (h : s ≠ s2) :
    (l.set s x).getD s2 d = l.getD s2 d := by
  induction l generalizing s s2 with
  | nil => rfl
  | cons a as ih =>
    cases s with
    | zero =>
      cases s2 with
      | zero => exact absurd rfl h
      | succ m2 => rfl
    | succ m =>
      cases s2 with
      | zero => rfl
      | succ m2 => exact ih (fun he => h (by rw [he]))

theorem getD_append_right_add {α : Type} (l l' : List α) (d : α) (i : Nat) :
    (l ++ l').getD (l.length + i) d = l'.getD i d := by
  induction l with
  | nil => simp
  | cons a as ih =>
    have : as.length + 1 + i = (as.length + i) + 1 := by omega
    simp only [List.cons_append, List.length_cons, this, List.getD_cons_succ]
    exact ih

theorem getD_replicate_lt {α : Type} {n i : Nat} (x d : α) (h : i < n) :
    (List.replicate n x).getD i d = x := by
  induction n generalizing i with
  | zero => simp at h
  | succ m ih =>
    cases i with
    | zero => rfl
    | succ j => exact ih (by omega)

-- === Storage invariant === --

/-- Invariant of a single storage: mapped slots are in-bounds and
occupied, mappings are injective, and free slots are in-bounds, empty,
unborrowed, pairwise distinct and disjoint from the mapped slots. -/
structure StInv (st : StorageState) : Prop where
  mapSlot : ∀ e s, st.mappings e = some s →
    s < st.slots.length ∧ (slotAt st s).val.isSome
  mapInj : ∀ e1 e2 s, st.mappings e1 = some s → st.mappings e2 = some s → e1 = e2
  freeOk : ∀ s ∈ st.freeSlots, s < st.slots.length ∧ slotAt st s = ⟨.free, none⟩
  freeNodup : st.freeSlots.Nodup
  freeNotMapped : ∀ e s, st.mappings e = some s → s ∉ st.freeSlots

theorem stInv_empty : StInv emptyStorage := by
  refine ⟨?_, ?_, ?_, ?_, ?_⟩
  · intro e s h
    simp [emptyStorage] at h
  · intro e1 e2 s h
    simp [emptyStorage] at h
  · intro s hs
    simp [emptyStorage] at hs
  · simp [emptyStorage]
  · intro e s h
    simp [emptyStorage] at h

theorem allocBlock_spec {st : StorageState} (h : StInv st) :
    StInv (allocBlock st) ∧
    (allocBlock st).mappings = st.mappings ∧
    (allocBlock st).freeSlots = st.freeSlots ++
      (List.range blockSize).map (fun i => st.slots.length + i) ∧
    (∀ s, s < st.slots.length → slotAt (allocBlock st) s = slotAt st s) := by
  have hpres : ∀ s, s < st.slots.length → slotAt (allocBlock st) s = slotAt st s := by
    intro s hs
    simp only [allocBlock, slotAt]
    exact getD_append_left _ _ _ _ hs
  have hnew : ∀ i, i < blockSize →
      slotAt (allocBlock st) (st.slots.length + i) = ⟨.free, none⟩ := by
    intro i hi
    simp only [allocBlock, slotAt]
    rw [getD_append_right_add]
    exact getD_replicate_lt _ _ hi
  have hlen : (allocBlock st).slots.length = st.slots.length + blockSize := by
    simp [allocBlock]
  refine ⟨⟨?_, ?_, ?_, ?_, ?_⟩, rfl, rfl, hpres⟩
  · intro e s hm
    rcases h.mapSlot e s hm with ⟨h1, h2⟩
    rw [hlen, hpres s h1]
    exact ⟨by omega, h2⟩
  · intro e1 e2 s h1 h2
    exact h.mapInj e1 e2 s h1 h2
  · intro s hs
    simp only [allocBlock, List.mem_append, List.mem_map, List.mem_range] at hs
    rcases hs with hs | ⟨i, hi, rfl⟩
    · rcases h.freeOk s hs with ⟨h1, h2⟩
      rw [hlen, hpres s h1]
      exact ⟨by omega, h2⟩
    · rw [hlen]
      exact ⟨by omega, hnew i hi⟩
  · simp only [allocBlock]
    rw [List.nodup_append]
    refine ⟨h.freeNodup, ?_, ?_⟩
    · exact List.Nodup.map (fun a b hab => by omega) (List.nodup_range _)
    · intro s hs hs2
      simp only [List.mem_map, List.mem_range] at hs2
      rcases hs2 with ⟨i, _, rfl⟩
      rcases h.freeOk _ hs with ⟨h1, _⟩
      omega
  · intro e s hm
    simp only [allocBlock, List.mem_append, List.mem_map, List.mem_range]
    rintro (hs | ⟨i, _, hi⟩)
    · exact h.freeNotMapped e s hm hs
    · rcases h.mapSlot e s hm with ⟨h1, _⟩
      omega

/-- Changing only the borrow state of a mapped slot preserves the
storage invariant. -/
theorem stInv_set_mapped_bs {st : StorageState} {e s : Nat} {b : BorrowState}
    (h : StInv st) (hm : st.mappings e = some s) :
    StInv { st with slots := st.slots.set s ⟨b, (slotAt st s).val⟩ } := by
  rcases h.mapSlot e s hm with ⟨hs, hv⟩
  refine ⟨?_, h.mapInj, ?_, h.freeNodup, h.freeNotMapped⟩
  · intro e2 s2 hm2
    rcases h.mapSlot e2 s2 hm2 with ⟨h1, h2⟩
    refine ⟨by simpa using h1, ?_⟩
    by_cases hss : s = s2
    · subst hss
      simp only [slotAt, getD_set_self _ _ hs]
      exact hv
    · simpa only [slotAt, getD_set_ne _ _ hss] using h2
  · intro s2 hs2
    rcases h.freeOk s2 hs2 with ⟨h1, h2⟩
    have hss : s ≠ s2 := fun he => h.freeNotMapped e s hm (he ▸ hs2)
    refine ⟨by simpa using h1, ?_⟩
    simpa only [slotAt, getD_set_ne _ _ hss] using h2

-- === Specifications of the storage operations === --

theorem insertVacant_spec {st1 : StorageState} {L : List Nat} {s : Nat} (e v : Nat)
    (hinv1 : StInv st1) (hLs : st1.freeSlots = L ++ [s]) :
    insertVacant st1 e v = .ok (none,
      { st1 with
        freeSlots := L,
        mappings := fun e2 => if e2 = e then some s else st1.mappings e2,
        slots := st1.slots.set s ⟨.free, some v⟩ }) := by
  have hsmem : s ∈ st1.freeSlots := by
    rw [hLs]
    simp
  rcases hinv1.freeOk s hsmem with ⟨hsb, hsl⟩
  have hgl : st1.freeSlots.getLast? = some s := by
    rw [hLs]
    simp
  have hdl : st1.freeSlots.dropLast = L := by
    rw [hLs]
    exact List.dropLast_concat ..
  simp only [insertVacant, hgl, slotAt] at hsl ⊢
  rw [hsl]
  simp [hdl]

theorem stInv_insert_fresh {st1 : StorageState} {e v : Nat} {L : List Nat} {s : Nat}
    (hinv1 : StInv st1) (hLs : st1.freeSlots = L ++ [s]) :
    StInv { st1 with
      freeSlots := L,
      mappings := fun e2 => if e2 = e then some s else st1.mappings e2,
      slots := st1.slots.set s ⟨.free, some v⟩ } := by
  have hsmem : s ∈ st1.freeSlots := by
    rw [hLs]
    simp
  rcases hinv1.freeOk s hsmem with ⟨hsb, _⟩
  have hnd := hinv1.freeNodup
  rw [hLs] at hnd
  have hsL : s ∉ L := by
    rcases List.nodup_append.mp hnd with ⟨_, _, hdisj⟩
    intro hmem
    exact hdisj hmem (List.mem_singleton_self s)
  refine ⟨?_, ?_, ?_, ?_, ?_⟩
  · intro e2 s2 hm2
    simp only at hm2
    by_cases he2 : e2 = e
    · rw [if_pos he2] at hm2
      cases hm2
      refine ⟨by simpa using hsb, ?_⟩
      simp only [slotAt]
      rw [getD_set_self _ _ hsb]
      rfl
    · rw [if_neg he2] at hm2
      rcases hinv1.mapSlot e2 s2 hm2 with ⟨h1, h2⟩
      have hss : s ≠ s2 := fun he => hinv1.freeNotMapped e2 s2 hm2 (he ▸ hsmem)
      refine ⟨by simpa using h1, ?_⟩
      simp only [slotAt] at h2 ⊢
      rw [getD_set_ne _ _ hss]
      exact h2
  · intro e1 e2 s2 h1 h2
    simp only at h1 h2
    by_cases he1 : e1 = e <;> by_cases he2 : e2 = e
    · rw [he1, he2]
    · rw [if_pos he1] at h1
      rw [if_neg he2] at h2
      cases h1
      exact absurd hsmem (hinv1.freeNotMapped e2 _ h2)
    · rw [if_neg he1] at h1
      rw [if_pos he2] at h2
      cases h2
      exact absurd hsmem (hinv1.freeNotMapped e1 _ h1)
    · rw [if_neg he1] at h1
      rw [if_neg he2] at h2
      exact hinv1.mapInj e1 e2 s2 h1 h2
  · intro s2 hs2
    simp only at hs2
    have hs2mem : s2 ∈ st1.freeSlots := by
      rw [hLs]
      exact List.mem_append_left _ hs2
    rcases hinv1.freeOk s2 hs2mem with ⟨h1, h2⟩
    have hss : s ≠ s2 := fun he => hsL (he ▸ hs2)
    refine ⟨by simpa using h1, ?_⟩
    simp only [slotAt] at h2 ⊢
    rw [getD_set_ne _ _ hss]
    exact h2
  · exact (List.nodup_append.mp hnd).1
  · intro e2 s2 hm2 hs2
    simp only at hm2 hs2
    by_cases he2 : e2 = e
    · rw [if_pos he2] at hm2
      cases hm2
      exact hsL hs2
    · rw [if_neg he2] at hm2
      exact hinv1.freeNotMapped e2 s2 hm2 (by rw [hLs]; exact List.mem_append_left _ hs2)

theorem insertUntracked_occupied {st : StorageState} {e v s : Nat}
    (hm : st.mappings e = some s) (hb : (slotAt st s).bs = .free) :
    insertUntracked st e v = .ok ((slotAt st s).val,
      { st with slots := st.slots.set s ⟨.free, some v⟩ }) := by
  simp [insertUntracked, hm, hb]

theorem stInv_insert_occupied {st : StorageState} {e v s : Nat}
    (h : StInv st) (hm : st.mappings e = some s) :
    StInv { st with slots := st.slots.set s ⟨.free, some v⟩ } := by
  rcases h.mapSlot e s hm with ⟨hs, _⟩
  refine ⟨?_, h.mapInj, ?_, h.freeNodup, h.freeNotMapped⟩
  · intro e2 s2 hm2
    rcases h.mapSlot e2 s2 hm2 with ⟨h1, h2⟩
    refine ⟨by simpa using h1, ?_⟩
    by_cases hss : s = s2
    · subst hss
      simp only [slotAt]
      rw [getD_set_self _ _ hs]
      rfl
    · simp only [slotAt] at h2 ⊢
      rw [getD_set_ne _ _ hss]
      exact h2
  · intro s2 hs2
    rcases h.freeOk s2 hs2 with ⟨h1, h2⟩
    have hss : s ≠ s2 := fun he => h.freeNotMapped e s hm (he ▸ hs2)
    refine ⟨by simpa using h1, ?_⟩
    simp only [slotAt] at h2 ⊢
    rw [getD_set_ne _ _ hss]
    exact h2

/-- The state `insert_untracked` enters for a fresh entity (claim C4's
slot reuse): the popped slot is guaranteed free and empty by the storage
invariant, so the insert returns `None` and the slot afterward holds the
new value. -/
theorem insertUntracked_fresh {st : StorageState} (e v : Nat) (h : StInv st)
    (hm : st.mappings e = none) :
    ∃ s L st1, StInv st1 ∧ st1.mappings = st.mappings ∧
      st1.freeSlots = L ++ [s] ∧ s < st1.slots.length ∧
      (st1 = st ∨ st1 = allocBlock st) ∧
      insertUntracked st e v = .ok (none,
        { st1 with
          freeSlots := L,
          mappings := fun e2 => if e2 = e then some s else st1.mappings e2,
          slots := st1.slots.set s ⟨.free, some v⟩ }) := by
  by_cases hemp : st.freeSlots.isEmpty
  · rcases allocBlock_spec h with ⟨h1, h2, h3, _⟩
    have hfe : st.freeSlots = [] := by
      cases hfs : st.freeSlots with
      | nil => rfl
      | cons a as => rw [hfs] at hemp; simp [List.isEmpty] at hemp
    have hne : (allocBlock st).freeSlots =
        (List.range blockSize).map (fun i => st.slots.length + i) := by
      rw [h3, hfe]
      simp
    rcases List.eq_nil_or_concat (allocBlock st).freeSlots with hnil | ⟨L, s, hLs⟩
    · rw [hne] at hnil
      simp [blockSize] at hnil
    · rw [List.concat_eq_append] at hLs
      refine ⟨s, L, allocBlock st, h1, h2, hLs, ?_, Or.inr rfl, ?_⟩
      · exact ((h1.freeOk s (by rw [hLs]; simp)).1)
      · rw [show insertUntracked st e v =
            insertVacant (allocBlock st) e v from by simp [insertUntracked, hm, hemp]]
        exact insertVacant_spec e v h1 hLs
  · rcases List.eq_nil_or_concat st.freeSlots with hnil | ⟨L, s, hLs⟩
    · rw [hnil] at hemp
      simp at hemp
    · rw [List.concat_eq_append] at hLs
      refine ⟨s, L, st, h, rfl, hLs, ?_, Or.inl rfl, ?_⟩
      · exact ((h.freeOk s (by rw [hLs]; simp)).1)
      · rw [show insertUntracked st e v =
            insertVacant st e v from by simp [insertUntracked, hm, hemp]]
        exact insertVacant_spec e v h hLs

theorem removeUntracked_mapped {st : StorageState} {e s : Nat}
    (hm : st.mappings e = some s) (hb : (slotAt st s).bs = .free) :
    removeUntracked st e = .ok ((slotAt st s).val,
      { st with
        mappings := fun e2 => if e2 = e then none else st.mappings e2,
        freeSlots := st.freeSlots ++ [s],
        slots := st.slots.set s ⟨.free, none⟩ }) := by
  simp [removeUntracked, hm, hb]

theorem removeUntracked_unmapped {st : StorageState} {e : Nat}
    (hm : st.mappings e = none) :
    removeUntracked st e = .ok (none, st) := by
  simp [removeUntracked, hm]

theorem stInv_remove_mapped {st : StorageState} {e s : Nat}
    (h : StInv st) (hm : st.mappings e = some s) :
    StInv { st with
      mappings := fun e2 => if e2 = e then none else st.mappings e2,
      freeSlots := st.freeSlots ++ [s],
      slots := st.slots.set s ⟨.free, none⟩ } := by
  rcases h.mapSlot e s hm with ⟨hs, _⟩
  refine ⟨?_, ?_, ?_, ?_, ?_⟩
  · intro e2 s2 hm2
    simp only at hm2
    by_cases he2 : e2 = e
    · rw [if_pos he2] at hm2
      cases hm2
    · rw [if_neg he2] at hm2
      rcases h.mapSlot e2 s2 hm2 with ⟨h1, h2⟩
      have hss : s ≠ s2 := by
        intro he
        exact he2 (h.mapInj e2 e s2 hm2 (by rw [← he] at hm2 ⊢; exact (he ▸ hm)))
      refine ⟨by simpa using h1, ?_⟩
      simp only [slotAt] at h2 ⊢
      rw [getD_set_ne _ _ hss]
      exact h2
  · intro e1 e2 s2 h1 h2
    simp only at h1 h2
    by_cases he1 : e1 = e
    · rw [if_pos he1] at h1
      cases h1
    · by_cases he2 : e2 = e
      · rw [if_pos he2] at h2
        cases h2
      · rw [if_neg he1] at h1
        rw [if_neg he2] at h2
        exact h.mapInj e1 e2 s2 h1 h2
  · intro s2 hs2
    simp only [List.mem_append, List.mem_singleton] at hs2
    rcases hs2 with hs2 | rfl
    · rcases h.freeOk s2 hs2 with ⟨h1, h2⟩
      have hss : s ≠ s2 := fun he => h.freeNotMapped e s hm (he ▸ hs2)
      refine ⟨by simpa using h1, ?_⟩
      simp only [slotAt] at h2 ⊢
      rw [getD_set_ne _ _ hss]
      exact h2
    · refine ⟨by simpa using hs, ?_⟩
      simp only [slotAt]
      rw [getD_set_self _ _ hs]
  · simp only
    rw [List.nodup_append]
    refine ⟨h.freeNodup, List.nodup_singleton s, ?_⟩
    intro s2 hs2 hs2'
    simp only [List.mem_singleton] at hs2'
    subst hs2'
    exact h.freeNotMapped e s2 hm hs2
  · intro e2 s2 hm2 hs2
    simp only at hm2
    simp only [List.mem_append, List.mem_singleton] at hs2
    by_cases he2 : e2 = e
    · rw [if_pos he2] at hm2
      cases hm2
    · rw [if_neg he2] at hm2
      rcases hs2 with hs2 | rfl
      · exact h.freeNotMapped e2 s2 hm2 hs2
      · exact he2 (h.mapInj e2 e s2 hm2 hm)

/-- Inversion of a successful `insert_untracked`: a characterization of
the resulting storage sufficient to re-establish all invariants. -/
theorem insertUntracked_ok_inv {st : StorageState} {e v : Nat} {p : Option Nat}
    {st' : StorageState} (h : StInv st)
    (hok : insertUntracked st e v = .ok (p, st')) :
    StInv st' ∧
    (∀ s2, st'.mappings e = some s2 → slotAt st' s2 = ⟨.free, some v⟩) ∧
    (st'.mappings e).isSome ∧
    (∀ e2, e2 ≠ e → st'.mappings e2 = st.mappings e2) ∧
    (∀ e2 s2, e2 ≠ e → st.mappings e2 = some s2 → slotAt st' s2 = slotAt st s2) ∧
    (st.mappings e = none → p = none) := by
  cases hm : st.mappings e with
  | some s =>
    rcases h.mapSlot e s hm with ⟨hsb, _⟩
    simp only [insertUntracked, hm] at hok
    by_cases hb : (slotAt st s).bs = .free
    · rw [if_pos hb] at hok
      simp only [Except.ok.injEq, Prod.mk.injEq] at hok
      rcases hok with ⟨rfl, rfl⟩
      refine ⟨stInv_insert_occupied h hm, ?_, ?_, ?_, ?_, ?_⟩
      · intro s2 hm2
        simp only at hm2
        rw [hm] at hm2
        cases hm2
        simp only [slotAt]
        rw [getD_set_self _ _ hsb]
      · simp only
        rw [hm]
        rfl
      · intro e2 _
        rfl
      · intro e2 s2 he2 hm2
        have hss : s ≠ s2 := by
          intro he
          exact he2 (h.mapInj e2 e s2 hm2 (he ▸ hm))
        simp only [slotAt]
        rw [getD_set_ne _ _ hss]
      · intro hc
        exact Option.noConfusion hc
    · rw [if_neg hb] at hok
      cases hok
  | none =>
    rcases insertUntracked_fresh e v h hm with
      ⟨s, L, st1, hinv1, hmap1, hLs, hsb, hd, heq⟩
    rw [heq] at hok
    simp only [Except.ok.injEq, Prod.mk.injEq] at hok
    rcases hok with ⟨rfl, rfl⟩
    have hsfree : s ∈ st1.freeSlots := by
      rw [hLs]
      simp
    refine ⟨stInv_insert_fresh hinv1 hLs, ?_, ?_, ?_, ?_, fun _ => rfl⟩
    · intro s2 hm2
      simp only [if_pos rfl] at hm2
      cases hm2
      simp only [slotAt]
      rw [getD_set_self _ _ hsb]
    · simp
    · intro e2 he2
      simp only [if_neg he2]
      rw [hmap1]
    · intro e2 s2 he2 hm2
      have hm2' : st1.mappings e2 = some s2 := by rw [hmap1]; exact hm2
      have hss : s ≠ s2 := fun he => hinv1.freeNotMapped e2 s2 hm2' (he ▸ hsfree)
      rcases h.mapSlot e2 s2 hm2 with ⟨hb2', _⟩
      have h14 : slotAt st1 s2 = slotAt st s2 := by
        rcases hd with h1 | h1
        · rw [h1]
        · rw [h1]
          exact (allocBlock_spec h).2.2.2 s2 hb2'
      simp only [slotAt]
      rw [getD_set_ne _ _ hss]
      rw [slotAt] at h14
      exact h14

theorem removeUntracked_ok_inv {st : StorageState} {e : Nat} {p : Option Nat}
    {st' : StorageState} (h : StInv st)
    (hok : removeUntracked st e = .ok (p, st')) :
    StInv st' ∧ st'.mappings e = none ∧
    (∀ e2, e2 ≠ e → st'.mappings e2 = st.mappings e2) ∧
    (∀ e2 s2, e2 ≠ e → st.mappings e2 = some s2 → slotAt st' s2 = slotAt st s2) ∧
    (∀ s, st.mappings e = some s → slotAt st' s = ⟨.free, none⟩ ∧ s ∈ st'.freeSlots ∧
      p = (slotAt st s).val) ∧
    (st.mappings e = none → p = none ∧ st' = st) := by
  cases hm : st.mappings e with
  | some s =>
    rcases h.mapSlot e s hm with ⟨hsb, _⟩
    simp only [removeUntracked, hm] at hok
    by_cases hb : (slotAt st s).bs = .free
    · rw [if_pos hb] at hok
      simp only [Except.ok.injEq, Prod.mk.injEq] at hok
      rcases hok with ⟨rfl, rfl⟩
      refine ⟨stInv_remove_mapped h hm, by simp, ?_, ?_, ?_, ?_⟩
      · intro e2 he2
        simp only [if_neg he2]
      · intro e2 s2 he2 hm2
        have hss : s ≠ s2 := by
          intro he
          exact he2 (h.mapInj e2 e s2 hm2 (he ▸ hm))
        simp only [slotAt]
        rw [getD_set_ne _ _ hss]
      · intro s2 hm2
        have hss : s = s2 := Option.some_inj.mp hm2
        subst hss
        refine ⟨?_, by simp, rfl⟩
        simp only [slotAt]
        rw [getD_set_self _ _ hsb]
      · intro hc
        exact Option.noConfusion hc
    · rw [if_neg hb] at hok
      cases hok
  | none =>
    rw [removeUntracked_unmapped hm] at hok
    simp only [Except.ok.injEq, Prod.mk.injEq] at hok
    rcases hok with ⟨rfl, rfl⟩
    refine ⟨h, hm, fun _ _ => rfl, fun _ _ _ _ => rfl, ?_, fun _ => ⟨rfl, rfl⟩⟩
    intro s hms
    exact Option.noConfusion hms

-- === Membership through archetype transitions === --

theorem nodeComps_extend_mem {db : Db} {n t : Nat} (hinv : DbInv db)
    (hn : n < db.nodes.length) (u : Nat) :
    u ∈ nodeComps (extend db n t).1 (extend db n t).2 ↔
      u ∈ nodeComps db n ∨ u = t := by
  rcases extend_spec n t hinv hn with ⟨_, _, _, _, hcomps⟩
  rw [hcomps]
  by_cases hmem : t ∈ nodeComps db n
  · rw [if_pos hmem]
    constructor
    · exact Or.inl
    · rintro (h | rfl)
      · exact h
      · exact hmem
  · rw [if_neg hmem, mem_mergeIters]
    simp

theorem nodeComps_deExtend_mem {db : Db} {n t : Nat} (hinv : DbInv db)
    (hn : n < db.nodes.length) (u : Nat) :
    u ∈ nodeComps (deExtend db n t).1 (deExtend db n t).2 ↔
      u ∈ nodeComps db n ∧ u ≠ t := by
  rcases deExtend_spec n t hinv hn with ⟨_, _, _, _, hcomps⟩
  rw [hcomps]
  by_cases hmem : t ∈ nodeComps db n
  · rw [if_pos hmem, List.mem_filter]
    simp
  · rw [if_neg hmem]
    constructor
    · intro h
      exact ⟨h, fun he => hmem (he ▸ h)⟩
    · exact And.left

-- === World invariant === --

/-- Global invariant tying together the alive-set, the archetype
directory and all per-type storages. -/
structure Wf (w : World) : Prop where
  dbInv : DbInv w.db
  rootLt : 0 < w.db.nodes.length
  rootEmpty : nodeComps w.db 0 = []
  aliveNode : ∀ e n, w.alive e = some n → n < w.db.nodes.length
  freshIds : ∀ e, w.nextId ≤ e → w.alive e = none
  stInv : ∀ t, StInv (w.storages t)
  mapNode : ∀ t e s, (w.storages t).mappings e = some s →
    ∃ n, w.alive e = some n ∧ t ∈ nodeComps w.db n
  compMapped : ∀ t e n, w.alive e = some n → t ∈ nodeComps w.db n →
    ((w.storages t).mappings e).isSome

theorem wf_init : Wf initWorld := by
  refine ⟨dbInv_init, by simp [initWorld, initDb], by simp [initWorld, initDb, nodeComps],
    ?_, ?_, ?_, ?_, ?_⟩
  · intro e n h
    simp [initWorld] at h
  · intro e _
    rfl
  · intro t
    exact stInv_empty
  · intro t e s h
    simp [initWorld, emptyStorage] at h
  · intro t e n h
    simp [initWorld] at h

theorem alive_lt_nextId {w : World} (h : Wf w) {e n : Nat} (ha : w.alive e = some n) :
    e < w.nextId := by
  by_contra hle
  rw [h.freshIds e (by omega)] at ha
  cases ha

theorem wf_create {w : World} (h : Wf w) : Wf (newEntity w).2 := by
  refine ⟨h.dbInv, h.rootLt, h.rootEmpty, ?_, ?_, h.stInv, ?_, ?_⟩
  · intro e n ha
    simp only [newEntity] at ha
    by_cases he : e = w.nextId
    · rw [if_pos he] at ha
      cases ha
      exact h.rootLt
    · rw [if_neg he] at ha
      exact h.aliveNode e n ha
  · intro e hle
    simp only [newEntity] at hle ⊢
    have hne : e ≠ w.nextId := by omega
    rw [if_neg hne]
    exact h.freshIds e (by omega)
  · intro t e s hm
    rcases h.mapNode t e s hm with ⟨n, ha, hc⟩
    refine ⟨n, ?_, hc⟩
    simp only [newEntity]
    have hne : e ≠ w.nextId := fun he =>
      absurd (alive_lt_nextId h ha) (by omega)
    rw [if_neg hne]
    exact ha
  · intro t e n ha hc
    simp only [newEntity] at ha
    by_cases he : e = w.nextId
    · rw [if_pos he] at ha
      cases ha
      simp only [newEntity] at hc
      rw [h.rootEmpty] at hc
      exact absurd hc (List.not_mem_nil t)
    · rw [if_neg he] at ha
      exact h.compMapped t e n ha hc

/-- Inversion of a successful tracked insert. -/
theorem insertComp_ok_inv {w : World} {t e v : Nat} {p : Option Nat} {w' : World}
    (hok : insertComp w t e v = .ok (p, w')) :
    ∃ n, w.alive e = some n ∧
      ∃ st', insertUntracked (w.storages t) e v = .ok (p, st') ∧
        w' = { w with
          db := (extend w.db n t).1,
          alive := fun e2 => if e2 = e then some (extend w.db n t).2 else w.alive e2,
          storages := fun t2 => if t2 = t then st' else w.storages t2 } := by
  cases ha : w.alive e with
  | none =>
    rw [insertComp.eq_def, ha] at hok
    cases hok
  | some n =>
    rw [insertComp.eq_def, ha] at hok
    simp only at hok
    cases hi : insertUntracked (w.storages t) e v with
    | error d =>
      rw [hi] at hok
      cases hok
    | ok pr =>
      rw [hi] at hok
      rcases pr with ⟨p2, st'⟩
      simp only [Except.ok.injEq, Prod.mk.injEq] at hok
      rcases hok with ⟨rfl, rfl⟩
      exact ⟨n, rfl, st', rfl, rfl⟩

/-- Inversion of a successful tracked remove. -/
theorem removeComp_ok_inv {w : World} {t e : Nat} {p : Option Nat} {w' : World}
    (hok : removeComp w t e = .ok (p, w')) :
    ∃ n, w.alive e = some n ∧
      ∃ st', removeUntracked (w.storages t) e = .ok (p, st') ∧
        w' = { w with
          db := (deExtend w.db n t).1,
          alive := fun e2 => if e2 = e then some (deExtend w.db n t).2 else w.alive e2,
          storages := fun t2 => if t2 = t then st' else w.storages t2 } := by
  cases ha : w.alive e with
  | none =>
    rw [removeComp.eq_def, ha] at hok
    cases hok
  | some n =>
    rw [removeComp.eq_def, ha] at hok
    simp only at hok
    cases hi : removeUntracked (w.storages t) e with
    | error d =>
      rw [hi] at hok
      cases hok
    | ok pr =>
      rw [hi] at hok
      rcases pr with ⟨p2, st'⟩
      simp only [Except.ok.injEq, Prod.mk.injEq] at hok
      rcases hok with ⟨rfl, rfl⟩
      exact ⟨n, rfl, st', rfl, rfl⟩

theorem wf_insert {w : World} {t e v : Nat} {p : Option Nat} {w' : World}
    (h : Wf w) (hok : insertComp w t e v = .ok (p, w')) : Wf w' := by
  rcases insertComp_ok_inv hok with ⟨n, ha, st', hi, rfl⟩
  have hn := h.aliveNode e n ha
  have helt := alive_lt_nextId h ha
  rcases extend_spec n t h.dbInv hn with ⟨hdb', hlen, hm2, hstab, _⟩
  rcases insertUntracked_ok_inv (h.stInv t) hi with
    ⟨hstinv', hslotv, hsome, hpres, hspres, hfresh⟩
  refine ⟨hdb', lt_of_lt_of_le h.rootLt hlen, ?_, ?_, ?_, ?_, ?_, ?_⟩
  · dsimp only
    rw [hstab 0 h.rootLt]
    exact h.rootEmpty
  · intro e2 n2 ha2
    dsimp only at ha2 ⊢
    by_cases he2 : e2 = e
    · rw [if_pos he2] at ha2
      cases ha2
      exact hm2
    · rw [if_neg he2] at ha2
      exact lt_of_lt_of_le (h.aliveNode e2 n2 ha2) hlen
  · intro e2 hle
    dsimp only at hle ⊢
    have hne : e2 ≠ e := by omega
    rw [if_neg hne]
    exact h.freshIds e2 hle
  · intro t2
    dsimp only
    by_cases ht2 : t2 = t
    · rw [if_pos ht2]
      exact hstinv'
    · rw [if_neg ht2]
      exact h.stInv t2
  · intro t2 e2 s2 hm'
    dsimp only at hm' ⊢
    by_cases ht2 : t2 = t
    · subst ht2
      rw [if_pos rfl] at hm'
      by_cases he2 : e2 = e
      · subst he2
        refine ⟨(extend w.db n t2).2, by rw [if_pos rfl], ?_⟩
        exact (nodeComps_extend_mem h.dbInv hn t2).mpr (Or.inr rfl)
      · rw [hpres e2 he2] at hm'
        rcases h.mapNode t2 e2 s2 hm' with ⟨n2, ha2, hc2⟩
        refine ⟨n2, by rw [if_neg he2]; exact ha2, ?_⟩
        rw [hstab n2 (h.aliveNode e2 n2 ha2)]
        exact hc2
    · rw [if_neg ht2] at hm'
      rcases h.mapNode t2 e2 s2 hm' with ⟨n2, ha2, hc2⟩
      by_cases he2 : e2 = e
      · subst he2
        rw [ha] at ha2
        cases ha2
        refine ⟨(extend w.db n t).2, by rw [if_pos rfl], ?_⟩
        exact (nodeComps_extend_mem h.dbInv hn t2).mpr (Or.inl hc2)
      · refine ⟨n2, by rw [if_neg he2]; exact ha2, ?_⟩
        rw [hstab n2 (h.aliveNode e2 n2 ha2)]
        exact hc2
  · intro t2 e2 n2 ha2 hc2
    dsimp only at ha2 hc2 ⊢
    by_cases he2 : e2 = e
    · subst he2
      rw [if_pos rfl] at ha2
      cases ha2
      rcases (nodeComps_extend_mem h.dbInv hn t2).mp hc2 with hold | rfl
      · by_cases ht2 : t2 = t
        · subst ht2
          rw [if_pos rfl]
          exact hsome
        · rw [if_neg ht2]
          exact h.compMapped t2 e2 n ha hold
      · rw [if_pos rfl]
        exact hsome
    · rw [if_neg he2] at ha2
      have hn2 := h.aliveNode e2 n2 ha2
      rw [hstab n2 hn2] at hc2
      have hold := h.compMapped t2 e2 n2 ha2 hc2
      by_cases ht2 : t2 = t
      · subst ht2
        rw [if_pos rfl, hpres e2 he2]
        exact hold
      · rw [if_neg ht2]
        exact hold

theorem wf_remove {w : World} {t e : Nat} {p : Option Nat} {w' : World}
    (h : Wf w) (hok : removeComp w t e = .ok (p, w')) : Wf w' := by
  rcases removeComp_ok_inv hok with ⟨n, ha, st', hi, rfl⟩
  have hn := h.aliveNode e n ha
  have helt := alive_lt_nextId h ha
  rcases deExtend_spec n t h.dbInv hn with ⟨hdb', hlen, hm2, hstab, _⟩
  rcases removeUntracked_ok_inv (h.stInv t) hi with
    ⟨hstinv', hnone, hpres, hspres, hfreed, hunm⟩
  refine ⟨hdb', lt_of_lt_of_le h.rootLt hlen, ?_, ?_, ?_, ?_, ?_, ?_⟩
  · dsimp only
    rw [hstab 0 h.rootLt]
    exact h.rootEmpty
  · intro e2 n2 ha2
    dsimp only at ha2 ⊢
    by_cases he2 : e2 = e
    · rw [if_pos he2] at ha2
      cases ha2
      exact hm2
    · rw [if_neg he2] at ha2
      exact lt_of_lt_of_le (h.aliveNode e2 n2 ha2) hlen
  · intro e2 hle
    dsimp only at hle ⊢
    have hne : e2 ≠ e := by omega
    rw [if_neg hne]
    exact h.freshIds e2 hle
  · intro t2
    dsimp only
    by_cases ht2 : t2 = t
    · rw [if_pos ht2]
      exact hstinv'
    · rw [if_neg ht2]
      exact h.stInv t2
  · intro t2 e2 s2 hm'
    dsimp only at hm' ⊢
    by_cases ht2 : t2 = t
    · subst ht2
      rw [if_pos rfl] at hm'
      by_cases he2 : e2 = e
      · subst he2
        rw [hnone] at hm'
        exact Option.noConfusion hm'
      · rw [hpres e2 he2] at hm'
        rcases h.mapNode t2 e2 s2 hm' with ⟨n2, ha2, hc2⟩
        refine ⟨n2, by rw [if_neg he2]; exact ha2, ?_⟩
        rw [hstab n2 (h.aliveNode e2 n2 ha2)]
        exact hc2
    · rw [if_neg ht2] at hm'
      rcases h.mapNode t2 e2 s2 hm' with ⟨n2, ha2, hc2⟩
      by_cases he2 : e2 = e
      · subst he2
        rw [ha] at ha2
        cases ha2
        refine ⟨(deExtend w.db n t).2, by rw [if_pos rfl], ?_⟩
        exact (nodeComps_deExtend_mem h.dbInv hn t2).mpr ⟨hc2, ht2⟩
      · refine ⟨n2, by rw [if_neg he2]; exact ha2, ?_⟩
        rw [hstab n2 (h.aliveNode e2 n2 ha2)]
        exact hc2
  · intro t2 e2 n2 ha2 hc2
    dsimp only at ha2 hc2 ⊢
    by_cases he2 : e2 = e
    · subst he2
      rw [if_pos rfl] at ha2
      cases ha2
      rcases (nodeComps_deExtend_mem h.dbInv hn t2).mp hc2 with ⟨hold, hne_t⟩
      rw [if_neg hne_t]
      exact h.compMapped t2 e2 n ha hold
    · rw [if_neg he2] at ha2
      have hn2 := h.aliveNode e2 n2 ha2
      rw [hstab n2 hn2] at hc2
      have hold := h.compMapped t2 e2 n2 ha2 hc2
      by_cases ht2 : t2 = t
      · subst ht2
        rw [if_pos rfl, hpres e2 he2]
        exact hold
      · rw [if_neg ht2]
        exact hold

/-- Changing only the borrow state of a mapped slot (what acquiring or
releasing a `Ref`/`RefMut` guard does) preserves the world invariant. -/
theorem wf_set_bs {w : World} {t e s : Nat} {b : BorrowState}
    (h : Wf w) (hm : (w.storages t).mappings e = some s) :
    Wf { w with storages := fun t2 => if t2 = t then
      { w.storages t with
        slots := (w.storages t).slots.set s ⟨b, (slotAt (w.storages t) s).val⟩ }
      else w.storages t2 } := by
  refine ⟨h.dbInv, h.rootLt, h.rootEmpty, h.aliveNode, h.freshIds, ?_, ?_, ?_⟩
  · intro t2
    dsimp only
    by_cases ht2 : t2 = t
    · subst ht2
      rw [if_pos rfl]
      exact stInv_set_mapped_bs (h.stInv t2) hm
    · rw [if_neg ht2]
      exact h.stInv t2
  · intro t2 e2 s2 hm2
    dsimp only at hm2
    by_cases ht2 : t2 = t
    · subst ht2
      rw [if_pos rfl] at hm2
      exact h.mapNode t2 e2 s2 hm2
    · rw [if_neg ht2] at hm2
      exact h.mapNode t2 e2 s2 hm2
  · intro t2 e2 n2 ha2 hc2
    dsimp only
    by_cases ht2 : t2 = t
    · rw [if_pos ht2]
      subst ht2
      exact h.compMapped t2 e2 n2 ha2 hc2
    · rw [if_neg ht2]
      exact h.compMapped t2 e2 n2 ha2 hc2

theorem wf_borrowS {w : World} {t e : Nat} {w' : World} (h : Wf w)
    (hok : borrowSharedComp w t e = .ok w') : Wf w' := by
  cases hm : (w.storages t).mappings e with
  | none =>
    simp only [borrowSharedComp, hm] at hok
    cases ha : w.alive e with
    | none =>
      rw [ha] at hok
      cases hok
    | some n =>
      rw [ha] at hok
      cases hok
  | some s =>
    simp only [borrowSharedComp, hm] at hok
    cases hb : (slotAt (w.storages t) s).bs with
    | exclusive =>
      simp only [hb] at hok
      cases hok
    | free =>
      simp only [hb] at hok
      simp only [Except.ok.injEq] at hok
      subst hok
      exact wf_set_bs h hm
    | shared nn =>
      simp only [hb] at hok
      simp only [Except.ok.injEq] at hok
      subst hok
      exact wf_set_bs h hm

theorem wf_borrowM {w : World} {t e : Nat} {w' : World} (h : Wf w)
    (hok : borrowMutComp w t e = .ok w') : Wf w' := by
  cases hm : (w.storages t).mappings e with
  | none =>
    simp only [borrowMutComp, hm] at hok
    cases ha : w.alive e with
    | none =>
      rw [ha] at hok
      cases hok
    | some n =>
      rw [ha] at hok
      cases hok
  | some s =>
    simp only [borrowMutComp, hm] at hok
    by_cases hb : (slotAt (w.storages t) s).bs = .free
    · rw [if_pos hb] at hok
      simp only [Except.ok.injEq] at hok
      subst hok
      exact wf_set_bs h hm
    · rw [if_neg hb] at hok
      cases hok

theorem wf_releaseS {w : World} {t e : Nat} {w' : World} (h : Wf w)
    (hok : releaseSharedComp w t e = .ok w') : Wf w' := by
  cases hm : (w.storages t).mappings e with
  | none =>
    simp only [releaseSharedComp, hm] at hok
    cases hok
  | some s =>
    simp only [releaseSharedComp, hm] at hok
    cases hb : (slotAt (w.storages t) s).bs with
    | exclusive =>
      simp only [hb] at hok
      cases hok
    | free =>
      simp only [hb] at hok
      cases hok
    | shared nn =>
      simp only [hb] at hok
      cases nn with
      | zero =>
        simp only [Except.ok.injEq] at hok
        subst hok
        exact wf_set_bs h hm
      | succ mm =>
        simp only [Except.ok.injEq] at hok
        subst hok
        exact wf_set_bs h hm

theorem wf_releaseM {w : World} {t e : Nat} {w' : World} (h : Wf w)
    (hok : releaseMutComp w t e = .ok w') : Wf w' := by
  cases hm : (w.storages t).mappings e with
  | none =>
    simp only [releaseMutComp, hm] at hok
    cases hok
  | some s =>
    simp only [releaseMutComp, hm] at hok
    by_cases hb : (slotAt (w.storages t) s).bs = .exclusive
    · rw [if_pos hb] at hok
      simp only [Except.ok.injEq] at hok
      subst hok
      exact wf_set_bs h hm
    · rw [if_neg hb] at hok
      cases hok

theorem nodeComps_nodup {w : World} (h : Wf w) {n : Nat}
    (hn : n < w.db.nodes.length) : (nodeComps w.db n).Nodup :=
  List.Pairwise.imp (fun hlt => Nat.ne_of_lt hlt)
    (h.dbInv.sorted _ (nodeComps_mem hn))

/-- What a successful destructor replay does to the world: it touches
only the storages of the replayed component types, clearing the dead
entity's mappings and recycling its slots, and performs no archetype
transition (database, alive-set and id generator are untouched). -/
theorem runDtors_ok {e : Nat} {L : List Nat} :
    ∀ {w w' : World}, L.Nodup →
    (∀ t, StInv (w.storages t)) →
    runDtors e L w = .ok w' →
    w'.db = w.db ∧ w'.alive = w.alive ∧ w'.nextId = w.nextId ∧
    (∀ t, t ∉ L → w'.storages t = w.storages t) ∧
    (∀ t, t ∈ L → (w'.storages t).mappings e = none) ∧
    (∀ t, StInv (w'.storages t)) ∧
    (∀ t e2, e2 ≠ e → (w'.storages t).mappings e2 = (w.storages t).mappings e2) ∧
    (∀ t e2 s2, e2 ≠ e → (w.storages t).mappings e2 = some s2 →
      slotAt (w'.storages t) s2 = slotAt (w.storages t) s2) ∧
    (∀ t s, t ∈ L → (w.storages t).mappings e = some s →
      slotAt (w'.storages t) s = ⟨.free, none⟩ ∧ s ∈ (w'.storages t).freeSlots) := by
  induction L with
  | nil =>
    intro w w' _ hst hok
    simp only [runDtors] at hok
    cases hok
    exact ⟨rfl, rfl, rfl, fun _ _ => rfl, fun t ht => absurd ht (List.not_mem_nil t),
      hst, fun _ _ _ => rfl, fun _ _ _ _ _ => rfl,
      fun t s ht => absurd ht (List.not_mem_nil t)⟩
  | cons t ts ih =>
    intro w w' hnd hst hok
    rcases List.nodup_cons.mp hnd with ⟨htts, hndts⟩
    simp only [runDtors] at hok
    cases hi : removeUntracked (w.storages t) e with
    | error d =>
      rw [hi] at hok
      cases hok
    | ok pr =>
      rcases pr with ⟨p1, st1⟩
      rw [hi] at hok
      rcases removeUntracked_ok_inv (hst t) hi with
        ⟨hstinv1, hnone1, hpres1, hspres1, hfreed1, _⟩
      have hst1 : ∀ t2, StInv ((fun t2 => if t2 = t then st1
          else w.storages t2) t2) := by
        intro t2
        dsimp only
        by_cases ht2 : t2 = t
        · rw [if_pos ht2]
          exact hstinv1
        · rw [if_neg ht2]
          exact hst t2
      rcases ih hndts hst1 hok with
        ⟨hdb, hal, hnext, hout, hmem, hstinv, hpres, hspres, hfreed⟩
      refine ⟨hdb, hal, hnext, ?_, ?_, hstinv, ?_, ?_, ?_⟩
      · intro t2 ht2
        have h1 : t2 ∉ ts := fun hh => ht2 (List.mem_cons_of_mem _ hh)
        have h2 : t2 ≠ t := fun hh => ht2 (hh ▸ List.mem_cons_self ..)
        rw [hout t2 h1]
        dsimp only
        rw [if_neg h2]
      · intro t2 ht2
        rcases List.mem_cons.mp ht2 with rfl | ht2'
        · rw [hout t2 htts]
          dsimp only
          rw [if_pos rfl]
          exact hnone1
        · exact hmem t2 ht2'
      · intro t2 e2 he2
        rw [hpres t2 e2 he2]
        dsimp only
        by_cases ht2 : t2 = t
        · subst ht2
          rw [if_pos rfl]
          exact hpres1 e2 he2
        · rw [if_neg ht2]
      · intro t2 e2 s2 he2 hm2
        by_cases ht2 : t2 = t
        · subst ht2
          refine Eq.trans (hspres t2 e2 s2 he2 ?_) ?_
          · dsimp only
            rw [if_pos rfl, hpres1 e2 he2]
            exact hm2
          · dsimp only
            rw [if_pos rfl]
            exact hspres1 e2 s2 he2 hm2
        · refine Eq.trans (hspres t2 e2 s2 he2 ?_) ?_
          · dsimp only
            rw [if_neg ht2]
            exact hm2
          · dsimp only
            rw [if_neg ht2]
      · intro t2 s ht2 hms
        rcases List.mem_cons.mp ht2 with rfl | hts2
        · rw [hout t2 htts]
          dsimp only
          rw [if_pos rfl]
          rcases hfreed1 s hms with ⟨hA, hB, _⟩
          exact ⟨hA, hB⟩
        · have ht2ne : t2 ≠ t := fun hh => htts (hh ▸ hts2)
          refine hfreed t2 s hts2 ?_
          dsimp only
          rw [if_neg ht2ne]
          exact hms

/-- The destructor replay succeeds whenever none of the dead entity's
slots is still dynamically borrowed. -/
theorem runDtors_succeeds {e : Nat} {L : List Nat} :
    ∀ {w : World},
    (∀ t, StInv (w.storages t)) →
    (∀ t s, (w.storages t).mappings e = some s →
      (slotAt (w.storages t) s).bs = .free) →
    ∃ w', runDtors e L w = .ok w' := by
  induction L with
  | nil =>
    intro w _ _
    exact ⟨w, rfl⟩
  | cons t ts ih =>
    intro w hst hb
    cases hm : (w.storages t).mappings e with
    | none =>
      have hi := removeUntracked_unmapped hm
      have hstep : runDtors e (t :: ts) w =
          runDtors e ts
            { w with
              storages := fun t2 => if t2 = t then w.storages t else w.storages t2 } := by
        simp only [runDtors]
        rw [hi]
      rw [hstep]
      apply ih
      · intro t2
        dsimp only
        by_cases ht2 : t2 = t
        · rw [if_pos ht2]
          exact hst t
        · rw [if_neg ht2]
          exact hst t2
      · intro t2 s2 hm2
        dsimp only at hm2 ⊢
        by_cases ht2 : t2 = t
        · subst ht2
          rw [if_pos rfl] at hm2 ⊢
          exact hb t2 s2 hm2
        · rw [if_neg ht2] at hm2 ⊢
          exact hb t2 s2 hm2
    | some s =>
      have hbfree := hb t s hm
      have hi := removeUntracked_mapped hm hbfree
      have hstep : runDtors e (t :: ts) w =
          runDtors e ts
            { w with
              storages := fun t2 =>
                if t2 = t then
                  { w.storages t with
                    mappings := fun e2 =>
                      if e2 = e then none else (w.storages t).mappings e2,
                    freeSlots := (w.storages t).freeSlots ++ [s],
                    slots := (w.storages t).slots.set s ⟨.free, none⟩ }
                else w.storages t2 } := by
        simp only [runDtors]
        rw [hi]
      rw [hstep]
      apply ih
      · intro t2
        dsimp only
        by_cases ht2 : t2 = t
        · rw [if_pos ht2]
          exact stInv_remove_mapped (hst t) hm
        · rw [if_neg ht2]
          exact hst t2
      · intro t2 s2 hm2
        dsimp only at hm2 ⊢
        by_cases ht2 : t2 = t
        · subst ht2
          rw [if_pos rfl] at hm2 ⊢
          simp only [if_pos rfl] at hm2
          exact Option.noConfusion hm2
        · rw [if_neg ht2] at hm2 ⊢
          exact hb t2 s2 hm2

theorem destroyEntity_ok_inv {w : World} {e : Nat} {w' : World}
    (hok : destroyEntity w e = .ok w') :
    ∃ n, w.alive e = some n ∧
      runDtors e (nodeComps w.db n)
        { w with alive := fun e2 => if e2 = e then none else w.alive e2 } = .ok w' := by
  cases ha : w.alive e with
  | none =>
    rw [destroyEntity.eq_def, ha] at hok
    cases hok
  | some n =>
    rw [destroyEntity.eq_def, ha] at hok
    exact ⟨n, rfl, hok⟩

theorem wf_destroy {w : World} {e : Nat} {w' : World} (h : Wf w)
    (hok : destroyEntity w e = .ok w') : Wf w' := by
  rcases destroyEntity_ok_inv hok with ⟨n, ha, hrd⟩
  have hn := h.aliveNode e n ha
  have helt := alive_lt_nextId h ha
  rcases @runDtors_ok e (nodeComps w.db n)
      { w with alive := fun e2 => if e2 = e then none else w.alive e2 } w'
      (nodeComps_nodup h hn) (fun t => h.stInv t) hrd with
    ⟨hdb, hal, hnext, hout, hnone, hstinv, hpres, hspres, hfreed⟩
  have hdb' : w'.db = w.db := hdb
  have hal' : ∀ e2, w'.alive e2 = if e2 = e then none else w.alive e2 := by
    intro e2
    rw [hal]
  have hnext' : w'.nextId = w.nextId := hnext
  refine ⟨?_, ?_, ?_, ?_, ?_, hstinv, ?_, ?_⟩
  · rw [hdb']
    exact h.dbInv
  · rw [hdb']
    exact h.rootLt
  · rw [show nodeComps w'.db 0 = nodeComps w.db 0 from by rw [hdb']]
    exact h.rootEmpty
  · intro e2 n2 ha2
    rw [hal' e2] at ha2
    rw [hdb']
    by_cases he2 : e2 = e
    · rw [if_pos he2] at ha2
      cases ha2
    · rw [if_neg he2] at ha2
      exact h.aliveNode e2 n2 ha2
  · intro e2 hle
    rw [hal' e2]
    rw [hnext'] at hle
    by_cases he2 : e2 = e
    · rw [if_pos he2]
    · rw [if_neg he2]
      exact h.freshIds e2 hle
  · intro t e2 s2 hm2
    by_cases he2 : e2 = e
    · subst he2
      by_cases htL : t ∈ nodeComps w.db n
      · rw [hnone t htL] at hm2
        cases hm2
      · rw [hout t htL] at hm2
        dsimp only at hm2
        rcases h.mapNode t e2 s2 hm2 with ⟨n2, ha2, hc2⟩
        rw [ha] at ha2
        cases ha2
        exact absurd hc2 htL
    · rw [hpres t e2 he2] at hm2
      dsimp only at hm2
      rcases h.mapNode t e2 s2 hm2 with ⟨n2, ha2, hc2⟩
      refine ⟨n2, ?_, ?_⟩
      · rw [hal' e2, if_neg he2]
        exact ha2
      · rw [show nodeComps w'.db n2 = nodeComps w.db n2 from by rw [hdb']]
        exact hc2
  · intro t e2 n2 ha2 hc2
    rw [hal' e2] at ha2
    by_cases he2 : e2 = e
    · rw [if_pos he2] at ha2
      cases ha2
    · rw [if_neg he2] at ha2
      rw [show nodeComps w'.db n2 = nodeComps w.db n2 from by rw [hdb']] at hc2
      have hold := h.compMapped t e2 n2 ha2 hc2
      rw [hpres t e2 he2]
      dsimp only
      exact hold

/-- All reachable worlds satisfy the global invariant. -/
theorem wf_reach {w : World} (h : Reach w) : Wf w := by
  induction h with
  | init => exact wf_init
  | create w hr ih => exact wf_create ih
  | insert w t e v p w' hr hok ih => exact wf_insert ih hok
  | remove w t e p w' hr hok ih => exact wf_remove ih hok
  | destroy w e w' hr hok ih => exact wf_destroy ih hok
  | borrowS w t e w' hr hok ih => exact wf_borrowS ih hok
  | borrowM w t e w' hr hok ih => exact wf_borrowM ih hok
  | releaseS w t e w' hr hok ih => exact wf_releaseS ih hok
  | releaseM w t e w' hr hok ih => exact wf_releaseM ih hok

-- === Claim theorems on the world model === --

theorem getComp_of_slot {w : World} {t e s v : Nat}
    (hm : (w.storages t).mappings e = some s)
    (hsl : slotAt (w.storages t) s = ⟨.free, some v⟩) :
    getComp w t e = .ok v := by
  simp [getComp, hm, hsl]

theorem mappings_none_of_dead {w : World} (hwf : Wf w) {e : Nat}
    (ha : w.alive e = none) (t : Nat) : (w.storages t).mappings e = none := by
  cases hm : (w.storages t).mappings e with
  | none => rfl
  | some s =>
    rcases hwf.mapNode t e s hm with ⟨n2, ha2, _⟩
    rw [ha] at ha2
    cases ha2

/-- Claim C2: after a successful `destroy(e)` in any reachable world,
`is_alive(e)` is false, `get::<T>(e)` for every component type `T` aborts
with the liveness diagnostic, and a second `destroy(e)` aborts. -/
theorem destroyed_entity_dead (w : World) (e : Nat) (w' : World)
    (hr : Reach w) (hd : destroyEntity w e = .ok w') :
    isAlive w' e = false ∧
    (∀ t, getComp w' t e = .error (.deadEntity e)) ∧
    destroyEntity w' e = .error (.deadEntity e) := by
  have hwf := wf_reach hr
  have hwf' := wf_destroy hwf hd
  rcases destroyEntity_ok_inv hd with ⟨n, ha, hrd⟩
  rcases @runDtors_ok e (nodeComps w.db n)
      { w with alive := fun e2 => if e2 = e then none else w.alive e2 } w'
      (nodeComps_nodup hwf (hwf.aliveNode e n ha)) (fun t => hwf.stInv t) hrd with
    ⟨hdb, hal, hnext, hout, hnone, hstinv, hpres, hspres, hfreed⟩
  have hdead : w'.alive e = none := by
    rw [show w'.alive = _ from hal]
    simp
  have hmapnone := mappings_none_of_dead hwf' hdead
  refine ⟨?_, ?_, ?_⟩
  · rw [isAlive, hdead]
    rfl
  · intro t
    simp [getComp, hmapnone t, hdead]
  · simp [destroyEntity, hdead]

def c2w1 : World := (newEntity initWorld).2

def c2w2 : World :=
  match destroyEntity c2w1 1 with
  | .ok w => w
  | .error _ => c2w1

theorem destroyed_entity_dead_witness :
    isAlive c2w2 1 = false ∧
    (∀ t, getComp c2w2 t 1 = .error (.deadEntity 1)) ∧
    destroyEntity c2w2 1 = .error (.deadEntity 1) :=
  destroyed_entity_dead c2w1 1 c2w2 (Reach.create initWorld Reach.init) rfl

/-- Claim C7: `get`/`get_mut` on a live entity lacking the requested type
abort with the missing-component diagnostic carrying the requested type
and the entity's full current component list; on an entity that is not
alive they abort with the distinct dead-entity diagnostic. -/
theorem get_missing_component_diagnostic (w : World) (t e : Nat) (hr : Reach w) :
    (∀ n, w.alive e = some n → t ∉ nodeComps w.db n →
      getComp w t e = .error (.missingComponent t e (nodeComps w.db n)) ∧
      borrowMutComp w t e = .error (.missingComponent t e (nodeComps w.db n))) ∧
    (w.alive e = none →
      getComp w t e = .error (.deadEntity e) ∧
      borrowMutComp w t e = .error (.deadEntity e)) := by
  have hwf := wf_reach hr
  constructor
  · intro n ha hnt
    have hm : (w.storages t).mappings e = none := by
      cases hm : (w.storages t).mappings e with
      | none => rfl
      | some s =>
        rcases hwf.mapNode t e s hm with ⟨n2, ha2, hc2⟩
        rw [ha] at ha2
        cases ha2
        exact absurd hc2 hnt
    constructor
    · simp [getComp, hm, ha]
    · simp [borrowMutComp, hm, ha]
  · intro ha
    have hm := mappings_none_of_dead hwf ha t
    constructor
    · simp [getComp, hm, ha]
    · simp [borrowMutComp, hm, ha]

theorem get_missing_component_diagnostic_witness :
    getComp c2w1 5 1 = .error (.missingComponent 5 1 []) ∧
    getComp c2w1 5 9 = .error (.deadEntity 9) :=
  ⟨((get_missing_component_diagnostic c2w1 5 1 (Reach.create initWorld Reach.init)).1
      0 rfl (by decide)).1,
   ((get_missing_component_diagnostic c2w1 5 9 (Reach.create initWorld Reach.init)).2
      rfl).1⟩

/-- Claim C10: removing a component type a live entity does not carry
returns `None` without aborting and leaves the entity's archetype node
(and the whole directory) unchanged. -/
theorem remove_missing_noop (w : World) (t e n : Nat) (hr : Reach w)
    (ha : w.alive e = some n) (hnt : t ∉ nodeComps w.db n) :
    ∃ w', removeComp w t e = .ok (none, w') ∧
      w'.alive e = some n ∧ w'.db = w.db := by
  have hwf := wf_reach hr
  have hm : (w.storages t).mappings e = none := by
    cases hm : (w.storages t).mappings e with
    | none => rfl
    | some s =>
      rcases hwf.mapNode t e s hm with ⟨n2, ha2, hc2⟩
      rw [ha] at ha2
      cases ha2
      exact absurd hc2 hnt
  have hde : deExtend w.db n t = (w.db, n) := by
    simp [deExtend, hnt]
  have hru := removeUntracked_unmapped hm
  have hrc : removeComp w t e = .ok (none,
      { w with
        db := (deExtend w.db n t).1,
        alive := fun e2 => if e2 = e then some (deExtend w.db n t).2 else w.alive e2,
        storages := fun t2 => if t2 = t then w.storages t else w.storages t2 }) := by
    rw [removeComp.eq_def, ha]
    dsimp only
    rw [hru]
  refine ⟨_, hrc, ?_, ?_⟩
  · dsimp only
    rw [if_pos rfl, hde]
  · dsimp only
    rw [hde]

theorem remove_missing_noop_witness :
    ∃ w', removeComp c2w1 5 1 = .ok (none, w') ∧
      w'.alive 1 = some 0 ∧ w'.db = c2w1.db :=
  remove_missing_noop c2w1 5 1 0 (Reach.create initWorld Reach.init) rfl (by decide)

/-- Claim C4: an insert of value `v` for a live entity that has no
current slot of the component type — in particular one that reuses a slot
freed by an earlier remove — returns `None` (no prior value), and a
subsequent read observes `v`: the storage invariant guarantees every free
slot has been emptied by `take()` when it was recycled. -/
theorem insert_reuse_returns_none (w : World) (t e2 v n : Nat) (hr : Reach w)
    (ha : w.alive e2 = some n) (hm : (w.storages t).mappings e2 = none) :
    ∃ w', insertComp w t e2 v = .ok (none, w') ∧ getComp w' t e2 = .ok v := by
  have hwf := wf_reach hr
  rcases insertUntracked_fresh e2 v (hwf.stInv t) hm with
    ⟨s, L, st1, hinv1, hmap1, hLs, hsb, hd, heq⟩
  have hic : insertComp w t e2 v = .ok (none,
      { w with
        db := (extend w.db n t).1,
        alive := fun e3 => if e3 = e2 then some (extend w.db n t).2 else w.alive e3,
        storages := fun t2 =>
          if t2 = t then
            { st1 with
              freeSlots := L,
              mappings := fun e3 => if e3 = e2 then some s else st1.mappings e3,
              slots := st1.slots.set s ⟨.free, some v⟩ }
          else w.storages t2 }) := by
    rw [insertComp.eq_def, ha]
    dsimp only
    rw [heq]
  refine ⟨_, hic, ?_⟩
  refine @getComp_of_slot _ t e2 s v ?_ ?_
  · dsimp only
    rw [if_pos rfl]
    dsimp only
    rw [if_pos rfl]
  · dsimp only
    rw [if_pos rfl]
    simp only [slotAt]
    rw [getD_set_self _ _ hsb]

def c4w1 : World := (newEntity (newEntity initWorld).2).2

def c4w2 : World := afterInsert c4w1 0 1 10

def c4w3 : World :=
  match removeComp c4w2 0 1 with
  | .ok r => r.2
  | .error _ => c4w2

theorem c4w3_reach : Reach c4w3 :=
  Reach.remove c4w2 0 1 (some 10) c4w3
    (Reach.insert c4w1 0 1 10 none c4w2
      (Reach.create _ (Reach.create _ Reach.init)) rfl) rfl

theorem insert_reuse_returns_none_witness :
    ∃ w', insertComp c4w3 0 2 13 = .ok (none, w') ∧ getComp w' 0 2 = .ok 13 :=
  insert_reuse_returns_none c4w3 0 2 13 0 c4w3_reach rfl rfl

/-- Claim C3: destroying a live entity removes it from the alive-set and
then, for each component type in its archetype node, dispatches an
untracked remove that detaches the (type, entity) slot and recycles it to
the free list; the replay performs no archetype transition — the
directory, the other entities' alive records and the untouched storages
are unchanged.  (The replay presumes none of the entity's slots is still
dynamically borrowed: a borrowed slot would abort the process.) -/
theorem destroy_replays_untracked_removes (w : World) (e n : Nat) (hr : Reach w)
    (ha : w.alive e = some n)
    (hb : ∀ t s, (w.storages t).mappings e = some s →
      (slotAt (w.storages t) s).bs = .free) :
    ∃ w', destroyEntity w e = .ok w' ∧
      w'.db = w.db ∧
      w'.alive e = none ∧
      (∀ e2, e2 ≠ e → w'.alive e2 = w.alive e2) ∧
      (∀ t, (w'.storages t).mappings e = none) ∧
      (∀ t, t ∈ nodeComps w.db n → ∃ s, (w.storages t).mappings e = some s ∧
        slotAt (w'.storages t) s = ⟨.free, none⟩ ∧ s ∈ (w'.storages t).freeSlots) ∧
      (∀ t, t ∉ nodeComps w.db n → w'.storages t = w.storages t) := by
  have hwf := wf_reach hr
  have hn := hwf.aliveNode e n ha
  rcases @runDtors_succeeds e (nodeComps w.db n)
      { w with alive := fun e2 => if e2 = e then none else w.alive e2 }
      (fun t => hwf.stInv t) hb with ⟨w', hrd⟩
  rcases @runDtors_ok e (nodeComps w.db n)
      { w with alive := fun e2 => if e2 = e then none else w.alive e2 } w'
      (nodeComps_nodup hwf hn) (fun t => hwf.stInv t) hrd with
    ⟨hdb, hal, hnext, hout, hnone, hstinv, hpres, hspres, hfreed⟩
  have hal' : ∀ e2, w'.alive e2 = if e2 = e then none else w.alive e2 := by
    intro e2
    rw [hal]
  refine ⟨w', ?_, hdb, ?_, ?_, ?_, ?_, ?_⟩
  · rw [destroyEntity.eq_def, ha]
    exact hrd
  · rw [hal' e, if_pos rfl]
  · intro e2 he2
    rw [hal' e2, if_neg he2]
  · intro t
    by_cases htL : t ∈ nodeComps w.db n
    · exact hnone t htL
    · rw [hout t htL]
      dsimp only
      cases hm : (w.storages t).mappings e with
      | none => rfl
      | some s =>
        rcases hwf.mapNode t e s hm with ⟨n2, ha2, hc2⟩
        rw [ha] at ha2
        cases ha2
        exact absurd hc2 htL
  · intro t htL
    have hsome := hwf.compMapped t e n ha htL
    cases hm : (w.storages t).mappings e with
    | none =>
      rw [hm] at hsome
      cases hsome
    | some s =>
      rcases hfreed t s htL hm with ⟨hA, hB⟩
      exact ⟨s, rfl, hA, hB⟩
  · intro t htL
    exact hout t htL

theorem destroy_replays_untracked_removes_witness :
    ∃ w', destroyEntity c2w1 1 = .ok w' ∧
      w'.db = c2w1.db ∧
      w'.alive 1 = none ∧
      (∀ e2, e2 ≠ 1 → w'.alive e2 = c2w1.alive e2) ∧
      (∀ t, (w'.storages t).mappings 1 = none) ∧
      (∀ t, t ∈ nodeComps c2w1.db 0 → ∃ s, (c2w1.storages t).mappings 1 = some s ∧
        slotAt (w'.storages t) s = ⟨.free, none⟩ ∧ s ∈ (w'.storages t).freeSlots) ∧
      (∀ t, t ∉ nodeComps c2w1.db 0 → w'.storages t = c2w1.storages t) :=
  destroy_replays_untracked_removes c2w1 1 0 (Reach.create initWorld Reach.init) rfl
    (fun _ _ hm => Option.noConfusion hm)

-- === bort token cells (`src/bort/src/core/token_cell.rs`) === --

/-- `ThreadAccess` from the token layer. Modelled from the spec:
`src/bort/src/core/token.rs` is not in the repository snapshot; §4.1
distinguishes shared from exclusive access levels. -/
inductive ThreadAccess where
  | shared
  | exclusive
deriving DecidableEq, Repr

/-- Modelled from the spec: `src/bort/src/core/cell.rs` (the `OptRefCell`
underlying `NOptRefCell`) is not in the repository snapshot.  Per §4.2 a
cell holds an optional value (present/absent) and a dynamic borrow
state; values are modelled as naturals. -/
structure OptRefCell where
  bs : BorrowState
  val : Option Nat
deriving DecidableEq, Repr

/-- Modelled from the spec: `OptRefCell::try_borrow_mut` returns `Err`
when any dynamic borrow is outstanding (§4.2: an exclusive borrow
requires zero outstanding borrows of any kind; "try_*" variants convert
the conflict into a recoverable result), and otherwise `Ok` with a guard
for an occupied cell (taking the exclusive borrow) or `Ok(None)` for an
empty cell. -/
def cellTryBorrowMut (c : OptRefCell) : Except Unit (Option Unit × OptRefCell) :=
  match c.bs with
  | .free =>
    match c.val with
    | some _ => .ok (some (), { c with bs := .exclusive })
    | none => .ok (none, c)
  | _ => .error ()

/-- Modelled from the spec: `OptRefCell::try_borrow` returns `Err` when
an exclusive borrow is outstanding (shared borrows may coexist),
otherwise `Ok` (adding one shared borrow on an occupied cell). -/
def cellTryBorrow (c : OptRefCell) : Except Unit (Option Unit × OptRefCell) :=
  match c.bs with
  | .exclusive => .error ()
  | .free =>
    match c.val with
    | some _ => .ok (some (), { c with bs := .shared 0 })
    | none => .ok (none, c)
  | .shared nn =>
    match c.val with
    | some _ => .ok (some (), { c with bs := .shared (nn + 1) })
    | none => .ok (none, c)

/-- `NOptRefCell` (`src/bort/src/core/token_cell.rs` lines 146-149): the
owner namespace (the `AtomicU64`, 0 meaning unbound, modelled as an
`Option`) plus the value cell. -/
structure NCell where
  ns : Option Nat
  cell : OptRefCell
deriving DecidableEq, Repr

/-- A token, reduced to its `check_access` behaviour: namespace ↦ granted
access level. Modelled from the spec:
`check_access(token, owner_namespace) -> Option<AccessLevel>` (§4.1); the
token layer (`token.rs`) is not in the repository snapshot. -/
structure Token where
  checkAccess : Option Nat → Option ThreadAccess

/-- Panics of the cell layer. -/
inductive CellDiag where
  | namespaceMismatch
  | borrowsOutstanding
deriving DecidableEq, Repr

/-- `NOptRefCell::set_namespace_ref` (`token_cell.rs` lines 267-298):
assert exclusive access for the calling token, then `try_borrow_mut` to
prove the dynamic borrow state is fully released — panicking when
borrows are still ongoing — and only then store the new namespace.  The
transient `Ok(_)` guard is dropped immediately, so the resulting cell
keeps its borrow state. -/
def setNamespaceRef (c : NCell) (tok : Token) (ns2 : Option Nat) :
    Except CellDiag NCell :=
  if tok.checkAccess c.ns = some .exclusive then
    match cellTryBorrowMut c.cell with
    | .error _ => .error .borrowsOutstanding
    | .ok _ => .ok { c with ns := ns2 }
  else .error .namespaceMismatch

/-- `NOptRefCell::try_borrow_mut` (`token_cell.rs` lines 376-385): the
namespace assertion panics (outer `error`), while a borrow conflict is
returned as a recoverable `Err` value (inner `error`). -/
def nCellTryBorrowMut (c : NCell) (tok : Token) :
    Except CellDiag (Except Unit (Option Unit × OptRefCell)) :=
  if tok.checkAccess c.ns = some .exclusive then .ok (cellTryBorrowMut c.cell)
  else .error .namespaceMismatch

/-- `NOptRefCell::try_borrow` (`token_cell.rs` lines 339-358); it too
asserts exclusive thread access before consulting the borrow state. -/
def nCellTryBorrow (c : NCell) (tok : Token) :
    Except CellDiag (Except Unit (Option Unit × OptRefCell)) :=
  if tok.checkAccess c.ns = some .exclusive then .ok (cellTryBorrow c.cell)
  else .error .namespaceMismatch

/-- Claim C9: reassigning a cell's owner namespace through
`set_namespace_ref` aborts whenever any dynamic borrow (shared or
exclusive) of the cell is outstanding, leaving the namespace unchanged
(no updated cell is produced); when no borrows are outstanding it updates
the owner namespace to the given value and changes nothing else. -/
theorem set_namespace_ref_spec (c : NCell) (tok : Token) (ns2 : Option Nat)
    (hacc : tok.checkAccess c.ns = some ThreadAccess.exclusive) :
    (c.cell.bs ≠ .free → setNamespaceRef c tok ns2 = .error .borrowsOutstanding) ∧
    (c.cell.bs = .free → setNamespaceRef c tok ns2 = .ok { c with ns := ns2 }) := by
  constructor
  · intro hbs
    simp only [setNamespaceRef, if_pos hacc]
    cases hb : c.cell.bs with
    | free => exact absurd hb hbs
    | shared nn => simp [cellTryBorrowMut, hb]
    | exclusive => simp [cellTryBorrowMut, hb]
  · intro hbs
    simp only [setNamespaceRef, if_pos hacc]
    cases hv : c.cell.val with
    | none => simp [cellTryBorrowMut, hbs, hv]
    | some x => simp [cellTryBorrowMut, hbs, hv]

def c9cell : NCell := ⟨some 7, ⟨.shared 0, some 3⟩⟩

def c9tok : Token := ⟨fun _ => some ThreadAccess.exclusive⟩

theorem set_namespace_ref_spec_witness :
    setNamespaceRef c9cell c9tok (some 8) = .error .borrowsOutstanding ∧
    setNamespaceRef ⟨some 7, ⟨.free, some 3⟩⟩ c9tok (some 8) =
      .ok ⟨some 8, ⟨.free, some 3⟩⟩ :=
  ⟨(set_namespace_ref_spec c9cell c9tok (some 8) rfl).1 (by decide),
   (set_namespace_ref_spec ⟨some 7, ⟨.free, some 3⟩⟩ c9tok (some 8) rfl).2 rfl⟩

-- === Claim C8: the concrete run showing `try_get` aborts === --

def c8w : World :=
  match borrowMutComp c4w2 0 1 with
  | .ok w => w
  | .error _ => c4w2

theorem c8w_reach : Reach c8w :=
  Reach.borrowM c4w2 0 1 c8w
    (Reach.insert c4w1 0 1 10 none c4w2
      (Reach.create _ (Reach.create _ Reach.init)) rfl) rfl

/-- Claim C8 as stated is false on the code: `Storage::try_get` and
`Storage::try_get_mut` are "try" variants, yet on a reachable state in
which entity 1's type-0 slot has an outstanding exclusive borrow (taken
by `get_mut`), they panic with a borrow-conflict abort
(`slot.borrow()` / `slot.borrow_mut()` on a `RefCell`) instead of
returning a recoverable `None`/`Err`. -/
theorem try_get_aborts_on_borrow_conflict :
    Reach c8w ∧ tryGetComp c8w 0 1 = .error .borrowConflict ∧
    tryGetMutComp c8w 0 1 = .error .borrowConflict :=
  ⟨c8w_reach, rfl, rfl⟩

/-- Claim C8 amended: the cell-level `try_borrow` / `try_borrow_mut`
return a recoverable `Err` on a borrow conflict instead of aborting
(when the token's namespace assertion passes), while the storage-level
`try_get` / `try_get_mut` are fail-soft only for the missing-component
case — they return `None` when the entity has no slot — and still abort
on a borrow conflict with an existing slot. -/
theorem try_variants_amended (c : NCell) (tok : Token) (w : World) (t e : Nat)
    (hacc : tok.checkAccess c.ns = some ThreadAccess.exclusive) :
    (c.cell.bs ≠ .free → nCellTryBorrowMut c tok = .ok (.error ())) ∧
    (c.cell.bs = .exclusive → nCellTryBorrow c tok = .ok (.error ())) ∧
    ((w.storages t).mappings e = none →
      tryGetComp w t e = .ok none ∧ tryGetMutComp w t e = .ok none) ∧
    (∀ s, (w.storages t).mappings e = some s →
      (slotAt (w.storages t) s).bs = .exclusive →
      tryGetComp w t e = .error .borrowConflict ∧
      tryGetMutComp w t e = .error .borrowConflict) := by
  refine ⟨?_, ?_, ?_, ?_⟩
  · intro hbs
    simp only [nCellTryBorrowMut, if_pos hacc]
    cases hb : c.cell.bs with
    | free => exact absurd hb hbs
    | shared nn => simp [cellTryBorrowMut, hb]
    | exclusive => simp [cellTryBorrowMut, hb]
  · intro hbs
    simp only [nCellTryBorrow, if_pos hacc]
    simp [cellTryBorrow, hbs]
  · intro hm
    exact ⟨by simp [tryGetComp, hm], by simp [tryGetMutComp, hm]⟩
  · intro s hm hbs
    constructor
    · simp [tryGetComp, hm, hbs]
    · simp [tryGetMutComp, hm, hbs]

theorem try_variants_amended_witness :
    nCellTryBorrowMut c9cell c9tok = .ok (.error ()) ∧
    (tryGetComp c8w 1 1 = .ok none ∧ tryGetMutComp c8w 1 1 = .ok none) ∧
    tryGetComp c8w 0 1 = .error .borrowConflict :=
  ⟨(try_variants_amended c9cell c9tok c8w 1 1 rfl).1 (by decide),
   (try_variants_amended c9cell c9tok c8w 1 1 rfl).2.2.1 rfl,
   ((try_variants_amended c9cell c9tok c8w 0 1 rfl).2.2.2 127 rfl rfl).1⟩

end MiniGeode
